import Mathlib

/-!
Verification development for the FRBR-Dutch-verdragenbank crawler
(src/crawler.py).  The crawler harvests treaty documents from a paginated
SRU service, extracts a target URL per record, redacts personal names with
regular-expression rules, and persists documents into capacity-bounded
shard files guarded by a checkpoint timestamp.

The definitions below are a shallow embedding of the Python source:
network effects are modelled by explicit oracles (a page-fetch oracle for
the SRU client, a content-fetch oracle for the extractor), Python
generators become fuel-bounded recursive functions, and Python string
truthiness is modelled explicitly.  Line references are to src/crawler.py.
-/

/-! ## SRU pagination client, src/crawler.py lines 39 to 93

`get_records` keeps a 1-based `start_record` offset, requests pages of a
fixed size, and stops on the first empty page or on the first exception.
The body of the `while True:` loop either yields the records of one page
and advances the offset by the page size, or terminates the generator.
-/

/-- Value found at `srw:records / srw:record` after `xmltodict.parse`:
the key can be absent, hold a single scalar record (xmltodict collapses
one-element lists), or hold a list of records. -/
inductive RecordsVal (R : Type) where
  | absent
  | one (r : R)
  | many (rs : List R)
deriving DecidableEq

/-- Outcome of fetching and decoding one page inside the `try:` block of
`get_records`: a decoded value, a `requests.exceptions.RequestException`
(transport failure after retry exhaustion), or any other exception while
processing the response body. -/
inductive PageResult (R : Type) where
  | ok (v : RecordsVal R)
  | transportErr
  | processErr
deriving DecidableEq

/-- Normalization done by `get_records` lines 79 to 81: a scalar record is
wrapped into a one-element list.  A present scalar record is a nonempty
dict in Python and therefore truthy, so `.one r` never triggers the
`if not records: break` test on line 76. -/
def normalizeRecords {R : Type} : RecordsVal R → List R
  | .absent => []
  | .one r => [r]
  | .many rs => rs

/-- The constant `PAGE_SIZE` of src/crawler.py line 37. -/
def PAGE_SIZE : Nat := 100

/-- Loop body of `get_records` (lines 55 to 93), driven by a page oracle
`fetch : start offset to page outcome` and a fuel bound standing in for
the unbounded `while True:`.  Returns the yielded records together with
the trace of requested `startRecord` offsets.  An empty page (line 76),
a transport error (line 88) or a processing error (line 91) all leave the
loop; otherwise the page records are yielded and the offset advances by
the page size (line 86). -/
def get_records_aux {R : Type} (fetch : Nat → PageResult R) (P : Nat) :
    Nat → Nat → List R × List Nat
  | _, 0 => ([], [])
  | start, fuel + 1 =>
    match fetch start with
    | .ok v =>
      let recs := normalizeRecords v
      if recs.isEmpty then ([], [start])
      else
        let rest := get_records_aux fetch P (start + P) fuel
        (recs ++ rest.1, start :: rest.2)
    | .transportErr => ([], [start])
    | .processErr => ([], [start])

/-- The generator `get_records` with its initial offset `start_record = 1`
(line 50).  The `start_date` query augmentation does not affect pagination
and is handled in the orchestrator model. -/
def get_records {R : Type} (fetch : Nat → PageResult R) (P fuel : Nat) :
    List R × List Nat :=
  get_records_aux fetch P 1 fuel

/-- Well-behaved SRU server holding exactly `N` records (numbered 1 to N):
the page at 1-based offset `start` with page size `P` holds records
`start` to `min (start + P - 1) N`, delivered through xmltodict with the
scalar collapse for one-element pages. -/
def serverPage (N P start : Nat) : RecordsVal Nat :=
  match List.range' start (min P (N + 1 - start)) with
  | [] => .absent
  | [r] => .one r
  | rs => .many rs

/-- Page oracle of the well-behaved `N`-record server: every request
succeeds at the transport level. -/
def serverFetch (N P : Nat) (start : Nat) : PageResult Nat :=
  .ok (serverPage N P start)

/-- Number of page requests `get_records` issues against the well-behaved
`N`-record server: one request per nonempty page plus the final empty
page request. -/
def pagesFetched (N P : Nat) : Nat :=
  if N = 0 then 1 else (N - 1) / P + 2

/-- Page oracle built from an explicit list of page outcomes, one per
page in order; pages beyond the list are empty (server exhausted).  Page
`k` (0-based) is served for offset `1 + k * P`. -/
def pageSeq {R : Type} (pages : List (PageResult R)) (P : Nat) :
    Nat → PageResult R :=
  fun start => pages.getD ((start - 1) / P) (.ok .absent)

/-- Records contributed by one page outcome: the normalized list for a
decoded page, nothing for a failed page. -/
def okRecords {R : Type} : PageResult R → List R
  | .ok v => normalizeRecords v
  | .transportErr => []
  | .processErr => []

/-- A page outcome on which the `get_records` loop terminates: an empty
decoded page or either kind of exception. -/
def isTerminal {R : Type} : PageResult R → Bool
  | .ok v => (normalizeRecords v).isEmpty
  | .transportErr => true
  | .processErr => true

/-! ## Record extractor, src/crawler.py lines 96 to 175

`parse_record` digs into the decoded record, normalizes the possibly
scalar `gzd:itemUrl` entry, picks a target URL by manifestation priority,
and resolves content: a fetch through `get_full_text` for XML selections,
a fixed placeholder otherwise.  `get_full_text` (fetch plus XML text
flattening, returning `None` on failure) is modelled as an oracle
`fetch : String to Option String`.
-/

/-- One `gzd:itemUrl` entry as decoded by xmltodict: the attribute
`@manifestation` and the element text `#text`, each possibly absent. -/
structure ItemUrl where
  manifestation : Option String
  text : Option String
deriving DecidableEq

/-- The `gzd:enrichedData` mapping: the possibly scalar `gzd:itemUrl`
entry and the bare `gzd:url` field. -/
structure EnrichedData where
  itemUrl : RecordsVal ItemUrl
  url : Option String
deriving DecidableEq

/-- A raw SRU record as seen by `parse_record`, reduced to the path
`srw:recordData / gzd:gzd / gzd:enrichedData` that the function reads. -/
structure SruRecord where
  enrichedData : EnrichedData
deriving DecidableEq

/-- The document produced by `parse_record` (lines 168 to 172). -/
structure ParsedDoc where
  URL : String
  Content : String
  Source : String
deriving DecidableEq

/-- Python truthiness of an optional string: `None` and the empty string
are falsy, every other string is truthy. -/
def pyTruthy : Option String → Bool
  | none => false
  | some s => !s.isEmpty

/-- Python `a or b` on optional strings as used on line 158. -/
def pyOr (a b : Option String) : Option String :=
  if pyTruthy a then a else b

/-- Normalization of `item_urls` on lines 135 to 137: absent key defaults
to `[]`, a scalar entry is wrapped into a one-element list. -/
def normalizeItems : RecordsVal ItemUrl → List ItemUrl
  | .absent => []
  | .one i => [i]
  | .many l => l

/-- One priority-tier loop of `parse_record` (for example lines 141 to
144): walk the item list, and on the first item whose `@manifestation`
equals `m`, take its `#text` and stop.  The first matching item wins even
when its `#text` is absent. -/
def manifestationUrl (items : List ItemUrl) (m : String) : Option String :=
  match items.find? (fun i => i.manifestation == some m) with
  | some i => i.text
  | none => none

/-- Value of the `xml_url` variable after lines 140 to 149: the Dutch XML
manifestation if it yielded a truthy URL, otherwise the plain XML
manifestation. -/
def xml_stage (items : List ItemUrl) : Option String :=
  let xmlNl := manifestationUrl items "xml-nl"
  if pyTruthy xmlNl then xmlNl else manifestationUrl items "xml"

/-- Value of the `pdf_url` variable after lines 151 to 156: only computed
when `xml_url` is falsy. -/
def pdf_stage (items : List ItemUrl) : Option String :=
  if pyTruthy (xml_stage items) then none else manifestationUrl items "pdf"

/-- Value of `target_url` on line 158:
`xml_url or pdf_url or enriched_data.get(gzd:url)`. -/
def target_stage (items : List ItemUrl) (gzdUrl : Option String) :
    Option String :=
  pyOr (xml_stage items) (pyOr (pdf_stage items) gzdUrl)

/-- The fixed placeholder written for non-XML selections (line 163). -/
def PLACEHOLDER : String :=
  "Content from non-XML source, e.g., PDF, not extracted."

/-- Embedding of `parse_record` (lines 120 to 175) against a content
oracle modelling `get_full_text`.  The `try/except` wrapper only guards
runtime surprises of the dynamic dict access and has no counterpart in
this typed model. -/
def parse_record (fetch : String → Option String) (r : SruRecord) :
    Option ParsedDoc :=
  let items := normalizeItems r.enrichedData.itemUrl
  let xmlUrl := xml_stage items
  let targetUrl := target_stage items r.enrichedData.url
  if !pyTruthy targetUrl then none
  else
    let content :=
      if pyTruthy xmlUrl then fetch (targetUrl.getD "") else some PLACEHOLDER
    if !pyTruthy content then none
    else some ⟨targetUrl.getD "", content.getD "", "Verdragenbank"⟩

/-- Spec-side URL selection, written from the specification words: the
priority is xml-nl over xml over pdf over the bare URL field, first match
per tier, null when no URL of any kind is present. -/
def specPriorityUrl (items : List ItemUrl) (gzdUrl : Option String) :
    Option String :=
  (manifestationUrl items "xml-nl").or
    ((manifestationUrl items "xml").or
      ((manifestationUrl items "pdf").or gzdUrl))

/-- Well-formed item list: every manifestation entry carries a nonempty
URL text, so each entry is a genuine (kind, URL) manifestation pair. -/
def wfItems (items : List ItemUrl) : Prop :=
  ∀ i ∈ items, ∃ s, i.text = some s ∧ s ≠ ""

/-! ## Crawl orchestrator, src/crawler.py lines 250 to 353

`main` loads the checkpoint, iterates the record generator, extracts and
scrubs each record, appends documents to the open shard (rotating when a
shard reaches `RECORDS_PER_SHARD`), stops early at `max_records`, and
finally rewrites the checkpoint when `processed_count > 0 or not
last_run_date`.  The model starts from an empty data directory (no
existing shard files), which is the situation claim C2 addresses: shard
index 0 starts empty and the initial writer opens shard 0.  Extraction
plus scrubbing (`parse_record` followed by `scrub_text`) is abstracted
into a single `process` function, since the loop treats it as a black
box producing an optional document.
-/

/-- The constants of src/crawler.py lines 246 and 247. -/
def RECORDS_PER_SHARD : Nat := 1000

/-- The default of the `--max-records` flag, line 247. -/
def DEFAULT_MAX_RECORDS : Nat := 250

/-- Mutable state of the `for record in records_iterator:` loop (lines
325 to 346): the closed shard files already rotated away, the content of
the currently open shard file, and `processed_count`.  For a fresh data
directory `records_in_current_shard` equals the open shard length. -/
structure LoopState (D : Type) where
  closed : List (List D)
  opened : List D
  processed : Nat

/-- The record loop of `main` (lines 325 to 346).  Per record: extract;
on success append to the open shard and count it; break once
`processed_count >= max_records` (line 335); otherwise rotate to a new
empty shard when the open shard reached `RECORDS_PER_SHARD` (line 339).
The break is checked before the rotation, exactly as in the source. -/
def crawl_loop {R D : Type} (M cap : Nat) (process : R → Option D) :
    List R → LoopState D → LoopState D
  | [], st => st
  | r :: rs, st =>
    match process r with
    | none => crawl_loop M cap process rs st
    | some d =>
      let opened := st.opened ++ [d]
      let processed := st.processed + 1
      if cap ≤ processed then ⟨st.closed, opened, processed⟩
      else if M ≤ opened.length then
        crawl_loop M cap process rs ⟨st.closed ++ [opened], [], processed⟩
      else
        crawl_loop M cap process rs ⟨st.closed, opened, processed⟩

/-- The same loop over documents that already passed extraction; the
record loop reduces to it by `filterMap`. -/
def write_loop {D : Type} (M cap : Nat) :
    List D → LoopState D → LoopState D
  | [], st => st
  | d :: ds, st =>
    let opened := st.opened ++ [d]
    let processed := st.processed + 1
    if cap ≤ processed then ⟨st.closed, opened, processed⟩
    else if M ≤ opened.length then
      write_loop M cap ds ⟨st.closed ++ [opened], [], processed⟩
    else
      write_loop M cap ds ⟨st.closed, opened, processed⟩

/-- Result of one `main` run: the shard files on disk (the open writer
file included, `jsonlines.open` creates it eagerly in both mode `a` and
mode `w`), the reported `processed_count`, and the content of the
`.last_update` checkpoint file after the run. -/
structure RunResult (D : Type) where
  shards : List (List D)
  processed : Nat
  checkpoint : Option String
deriving DecidableEq

/-- One crawler run of `main` (lines 281 to 353) on a fresh data
directory: pagination via `get_records` against the page oracle `fetch`,
the record loop, and the final checkpoint commit of lines 352 and 353
(`if processed_count > 0 or not last_run_date: save_last_run_date()`),
which writes the current wall clock `now`.  `last_run_date` is the value
loaded on line 291; an interrupted or failed pagination is invisible
here because the generator swallows both error kinds (claim C9). -/
def run_crawl {R D : Type} (fetch : Nat → PageResult R) (P fuel : Nat)
    (M cap : Nat) (process : R → Option D)
    (last_run_date : Option String) (now : String) : RunResult D :=
  let records := (get_records fetch P fuel).1
  let st := crawl_loop M cap process records ⟨[], [], 0⟩
  { shards := st.closed ++ [st.opened]
    processed := st.processed
    checkpoint :=
      if 0 < st.processed ∨ !pyTruthy last_run_date then some now
      else last_run_date }

/-- Partition a list into consecutive chunks of `M` elements, the last
chunk possibly shorter; fuel-driven so the function is total also at
`M = 0`.  This is the spec-side shape of a run output: given `N`
documents and capacity `M`, ceil(N / M) files with the last one holding
the remainder. -/
def chunksAux {D : Type} (M : Nat) : Nat → List D → List (List D)
  | 0, _ => []
  | _, [] => []
  | fuel + 1, l => l.take M :: chunksAux M fuel (l.drop M)

/-- Chunks of size `M` with just enough fuel. -/
def chunksOf {D : Type} (M : Nat) (l : List D) : List (List D) :=
  chunksAux M l.length l

/-! ## Redaction rules, src/crawler.py lines 177 to 232

The scrubber applies Python regular expressions with `re.sub`.  The
embedding below implements, for the three name rules claim C5 is about,
the Python matching discipline: leftmost match, alternatives tried in
pattern order, greedy quantifiers with backtracking, case-insensitive
matching (the `(?i)` flag covers the whole pattern, character classes
included), and the non-overlapping left-to-right substitution scan of
`re.sub`.  Texts are Unicode strings; the case folding is modelled for
ASCII, and the accented ranges of the classes already contain both cases
of the Latin-1 letters, so the model agrees with Python on ASCII and
Latin-1 text apart from exotic case pairs outside Latin-1.
-/

/-- ASCII upper-case letter test. -/
def asciiUpper (c : Char) : Bool :=
  decide (65 ≤ c.toNat ∧ c.toNat ≤ 90)

/-- ASCII lower-case letter test. -/
def asciiLower (c : Char) : Bool :=
  decide (97 ≤ c.toNat ∧ c.toNat ≤ 122)

/-- ASCII letter test: the class `[A-Z]` under the `(?i)` flag. -/
def asciiLetter (c : Char) : Bool :=
  asciiUpper c || asciiLower c

/-- ASCII case folding as applied by `re.IGNORECASE` to ASCII letters. -/
def lowerA (c : Char) : Char :=
  if asciiUpper c then Char.ofNat (c.toNat + 32) else c

/-- The accented letter ranges of the scrubber classes: À-Ö, Ø-ö and ø-ÿ
(Latin-1 letters, excluding the multiplication and division signs). -/
def latinExtLetter (c : Char) : Bool :=
  decide ((0xC0 ≤ c.toNat ∧ c.toNat ≤ 0xD6) ∨
    (0xD8 ≤ c.toNat ∧ c.toNat ≤ 0xF6) ∨
    (0xF8 ≤ c.toNat ∧ c.toNat ≤ 0xFF))

/-- The class `[A-ZÀ-ÖØ-öø-ÿ]` under `(?i)`: ASCII letters of either case
plus the accented ranges. -/
def nameStartCls (c : Char) : Bool :=
  asciiLetter c || latinExtLetter c

/-- The name-character class of the patterns (letters, accented letters,
dot, apostrophe, backtick, hyphen) under `(?i)`. -/
def nameCls (c : Char) : Bool :=
  nameStartCls c || c == '.' || c == Char.ofNat 39 ||
    c == Char.ofNat 96 || c == '-'

/-- Python `\s` restricted to its ASCII members. -/
def wsCls (c : Char) : Bool :=
  c == ' ' || c == '\t' || c == '\n' || c == '\r' ||
    c == Char.ofNat 11 || c == Char.ofNat 12

/-- Python `\w` (for `\b`) on ASCII and Latin-1: letters, digits,
underscore, and the stray Latin-1 letters ª, µ and º. -/
def isWordChar (c : Char) : Bool :=
  asciiLetter c || decide (48 ≤ c.toNat ∧ c.toNat ≤ 57) || c == '_' ||
    latinExtLetter c || c == Char.ofNat 0xAA || c == Char.ofNat 0xB5 ||
    c == Char.ofNat 0xBA

/-- Matcher continuation: previous character (for `\b`), remaining
suffix; a success carries the group-1 length and the total match length
measured at the top of the rule matcher. -/
def K : Type := Option Char → List Char → Option (Nat × Nat)

/-- Single character from a class. -/
def pTok (p : Char → Bool) (k : K) : K := fun _ s =>
  match s with
  | [] => none
  | c :: cs => if p c then k (some c) cs else none

/-- Ordered alternation with backtracking: the left alternative is
preferred, exactly like `|` in a Python pattern. -/
def pAlt (a b : K → K) (k : K) : K := fun prev s =>
  a k prev s <|> b k prev s

/-- Greedy option `X?`: try the pattern first, fall back to skipping. -/
def pOpt (a : K → K) (k : K) : K := fun prev s =>
  a k prev s <|> k prev s

/-- Greedy bounded repetition `X{0,2}`. -/
def pRep02 (a : K → K) : K → K :=
  pOpt (fun k => a (pOpt a k))

/-- Previous-character value after consuming `i` characters of `s`. -/
def prevAfter (prev : Option Char) (s : List Char) (i : Nat) : Option Char :=
  if i = 0 then prev else (s.take i).getLast?

/-- Length of the maximal prefix inside a character class. -/
def munch (p : Char → Bool) : List Char → Nat
  | [] => 0
  | c :: cs => if p c then munch p cs + 1 else 0

/-- Try consuming `n, n-1, ..., 0` characters, longest first. -/
def tryDown (t : Nat → Option (Nat × Nat)) : Nat → Option (Nat × Nat)
  | 0 => t 0
  | n + 1 => t (n + 1) <|> tryDown t n

/-- Try consuming `n, n-1, ..., 1` characters, longest first. -/
def tryDown1 (t : Nat → Option (Nat × Nat)) : Nat → Option (Nat × Nat)
  | 0 => none
  | n + 1 => t (n + 1) <|> tryDown1 t n

/-- Greedy `[class]*` with backtracking. -/
def pStarCls (p : Char → Bool) (k : K) : K := fun prev s =>
  tryDown (fun i => k (prevAfter prev s i) (s.drop i)) (munch p s)

/-- Greedy `[class]+` with backtracking. -/
def pPlusCls (p : Char → Bool) (k : K) : K := fun prev s =>
  tryDown1 (fun i => k (prevAfter prev s i) (s.drop i)) (munch p s)

/-- Zero-width `\b` word-boundary assertion. -/
def pWb (k : K) : K := fun prev s =>
  let left := match prev with
    | none => false
    | some c => isWordChar c
  let right := match s with
    | [] => false
    | c :: _ => isWordChar c
  if left != right then k prev s else none

/-- Case-insensitive literal, one pattern character per list element. -/
def pLit (lits : List Char) (k : K) : K :=
  match lits with
  | [] => k
  | l :: ls => pTok (fun c => lowerA c == lowerA l) (pLit ls k)

/-- Greedy group repetition `(?:X)+` with fuel (each iteration of the
groups used here consumes at least one character, so suffix-length fuel
is enough). -/
def pPlusGrp (a : K → K) : Nat → K → K
  | 0, _ => fun _ _ => none
  | fuel + 1, k => a (fun prev s => pPlusGrp a fuel k prev s <|> k prev s)

/-- Literal dot pattern character `\.` (optional in the title tokens). -/
def pDot : K → K := fun k => pTok (fun c => c == '.') k

/-- Optional trailing dot of the title abbreviations, `mr\.?` etc. -/
def pOptDot : K → K := pOpt pDot

/-- An initial `[A-Z]\.` as repeated before names. -/
def pInitial : K → K := fun k => pTok asciiLetter (pDot k)

/-- The optional initials group `((?:[A-Z]\.)+\s*)?` of the title and
courtesy patterns. -/
def pInitialsGrp (fuel : Nat) : K → K :=
  pOpt (fun k => pPlusGrp pInitial fuel (pStarCls wsCls k))

/-- A capitalized-name word: a name-start character followed by one or
more name-class characters, greedy. -/
def pNameWord : K → K := fun k =>
  pTok nameStartCls (pPlusCls nameCls k)

/-- Tail of the title and courtesy patterns after the keyword:
`\s+((?:[A-Z]\.)+\s*)?NAME(?:\s+NAME){0,2}` with NAME the capitalized
word above. -/
def pNameTail (fuel : Nat) : K → K := fun k =>
  pPlusCls wsCls
    (pInitialsGrp fuel
      (pNameWord (pRep02 (fun k2 => pPlusCls wsCls (pNameWord k2)) k)))

/-- Tail of the party pattern after the keyword:
`\s+((?:[A-Z]\.)?\s*NAME)` with a single name word. -/
def pPartyTail : K → K := fun k =>
  pPlusCls wsCls (pOpt pInitial (pStarCls wsCls (pNameWord k)))

/-- Group 1 of `_TITLE_NAME_PATTERN`: `(mr\.?|prof\.?|dr\.?|ir\.?)`. -/
def pTitleG1 : K → K :=
  pAlt (fun k => pLit ("mr".toList) (pOptDot k))
    (pAlt (fun k => pLit ("prof".toList) (pOptDot k))
      (pAlt (fun k => pLit ("dr".toList) (pOptDot k))
        (fun k => pLit ("ir".toList) (pOptDot k))))

/-- Group 1 of `_PARTY_PATTERN`: `(klager|verweerder)`. -/
def pPartyG1 : K → K :=
  pAlt (fun k => pLit ("klager".toList) k)
    (fun k => pLit ("verweerder".toList) k)

/-- Group 1 of `_COURTESY_PATTERN`: `(de\s+heer|mevrouw|mevr\.?)`. -/
def pCourtesyG1 : K → K :=
  pAlt (fun k =>
      pLit ("de".toList) (pPlusCls wsCls (pLit ("heer".toList) k)))
    (pAlt (fun k => pLit ("mevrouw".toList) k)
      (fun k => pLit ("mevr".toList) (pOptDot k)))

/-- Anchored match attempt of one rule at the current position: the
leading `\b`, the capture group for the keyword, then the tail.  On
success, returns the group-1 length and the total match length. -/
def ruleMatch (g1 tail : K → K) (prev : Option Char) (s : List Char) :
    Option (Nat × Nat) :=
  pWb (g1 (fun prev1 s1 =>
    tail (fun _ s2 => some (s.length - s1.length, s.length - s2.length))
      prev1 s1)) prev s

/-- Match attempt of `_TITLE_NAME_PATTERN` (lines 179 to 182). -/
def titleMatch (prev : Option Char) (s : List Char) : Option (Nat × Nat) :=
  ruleMatch pTitleG1 (pNameTail s.length) prev s

/-- Match attempt of `_PARTY_PATTERN` (lines 185 to 187). -/
def partyMatch (prev : Option Char) (s : List Char) : Option (Nat × Nat) :=
  ruleMatch pPartyG1 pPartyTail prev s

/-- Match attempt of `_COURTESY_PATTERN` (lines 190 to 193). -/
def courtesyMatch (prev : Option Char) (s : List Char) : Option (Nat × Nat) :=
  ruleMatch pCourtesyG1 (pNameTail s.length) prev s

/-- The `re.sub` scan with replacement `group(1) ++ " NAAM"`: walk the
text left to right; at a match, emit the kept group-1 text and the
placeholder, then continue after the match (matches never overlap and
replaced text is never rescanned); otherwise move one character.  All
three rules replace with `f"{m.group(1)} NAAM"`.  Every match of these
rules consumes at least one character, so length-plus-one fuel covers
the whole scan. -/
def sub_scan (matchAt : Option Char → List Char → Option (Nat × Nat)) :
    Nat → Option Char → List Char → List Char
  | 0, _, s => s
  | _ + 1, _, [] => []
  | fuel + 1, prev, c :: cs =>
    match matchAt prev (c :: cs) with
    | some (g1, len) =>
      (c :: cs).take g1 ++ " NAAM".toList ++
        sub_scan matchAt fuel (prevAfter prev (c :: cs) len)
          ((c :: cs).drop len)
    | none => c :: sub_scan matchAt fuel (some c) cs

/-- Embedding of `scrub_title_names` (lines 200 to 204); the
`if not text` guard returns the empty text unchanged, which the scan
does as well. -/
def scrub_title_names (text : String) : String :=
  String.mk (sub_scan titleMatch (text.length + 1) none text.toList)

/-- Embedding of `scrub_party_names` (lines 206 to 210). -/
def scrub_party_names (text : String) : String :=
  String.mk (sub_scan partyMatch (text.length + 1) none text.toList)

/-- Embedding of `scrub_courtesy_names` (lines 212 to 216). -/
def scrub_courtesy_names (text : String) : String :=
  String.mk (sub_scan courtesyMatch (text.length + 1) none text.toList)

/-! ## First-order evaluation of the party matcher

The party pattern ends in the name word, and in `ruleMatch` the
continuation supplied after the tail always succeeds, so the greedy
quantifiers of `_PARTY_PATTERN` never backtrack past their maximal
munch.  The backtracking matcher `partyMatch` therefore agrees with the
direct evaluation below, proved as `partyMatch_eq_fn`; the idempotence
argument for rule 2 is carried out on this evaluation. -/

/-- The characters of the first party keyword, `klager`. -/
def kwKlager : List Char := ['k', 'l', 'a', 'g', 'e', 'r']

/-- The characters of the second party keyword, `verweerder`. -/
def kwVerweerder : List Char :=
  ['v', 'e', 'r', 'w', 'e', 'e', 'r', 'd', 'e', 'r']

/-- Length consumed by the name word `[A-Z..][A-Za-z..'-]+` at `u`, if
it matches there: a name-start character and a maximal nonempty run of
name characters. -/
def nameWordLen (u : List Char) : Option Nat :=
  match u with
  | [] => none
  | h :: x =>
    if nameStartCls h = true ∧ 1 ≤ munch nameCls x then
      some (1 + munch nameCls x)
    else none

/-- Length consumed by `\s*NAME` at `v`: the whole whitespace run, then
the name word. -/
def starNameLen (v : List Char) : Option Nat :=
  match nameWordLen (v.drop (munch wsCls v)) with
  | some n => some (munch wsCls v + n)
  | none => none

/-- Length consumed by the initial path `[A-Z]\.\s*NAME` at `w`. -/
def initLen (w : List Char) : Option Nat :=
  match w with
  | l :: d :: v =>
    if asciiLetter l = true ∧ d = '.' then
      match starNameLen v with
      | some n => some (2 + n)
      | none => none
    else none
  | _ => none

/-- Length consumed by `((?:[A-Z]\.)?\s*NAME)` at `w`: the greedy
option prefers the initial path. -/
def bodyLen (w : List Char) : Option Nat :=
  match initLen w with
  | some n => some n
  | none => starNameLen w

/-- Length consumed by the party tail `\s+((?:[A-Z]\.)?\s*NAME)` at
`u`: a nonempty whitespace run, then the body. -/
def tailLen (u : List Char) : Option Nat :=
  if munch wsCls u = 0 then none
  else
    match bodyLen (u.drop (munch wsCls u)) with
    | some n => some (munch wsCls u + n)
    | none => none

/-- Group-1 length of `(klager|verweerder)` at `s` under `(?i)`, the
first alternative preferred. -/
def kwLen (s : List Char) : Option Nat :=
  if (s.take 6).map lowerA = kwKlager then some 6
  else if (s.take 10).map lowerA = kwVerweerder then some 10
  else none

/-- The `\b` test of the party pattern at the current position. -/
def wbOk (prev : Option Char) (s : List Char) : Bool :=
  (match prev with
    | none => false
    | some c => isWordChar c) !=
  (match s with
    | [] => false
    | c :: _ => isWordChar c)

/-- Direct evaluation of `_PARTY_PATTERN` at one position: `\b`, the
keyword group, then the tail; on success the group-1 length and the
total match length. -/
def partyMatchFn (prev : Option Char) (s : List Char) : Option (Nat × Nat) :=
  if wbOk prev s = true then
    match kwLen s with
    | some g1 =>
      match tailLen (s.drop g1) with
      | some t => some (g1, g1 + t)
      | none => none
    | none => none
  else none

/-- Position, group-1 length and length of the leftmost party match in
`u`, scanning with the previous-character context. -/
def firstMatch (prev : Option Char) : List Char → Option (Nat × Nat × Nat)
  | [] => none
  | c :: cs =>
    match partyMatchFn prev (c :: cs) with
    | some (g1, len) => some (0, g1, len)
    | none => (firstMatch (some c) cs).map (fun x => (x.1 + 1, x.2))

/-- Previous-character context at position `P` of a scan of `u` that
started with context `prev`. -/
def prevAt (prev : Option Char) (u : List Char) (P : Nat) : Option Char :=
  if P = 0 then prev else u[P - 1]?

/-- Number of nonempty pages the well-behaved `N`-record server serves
from 1-based offset `start` on with page size `P`. -/
def reqCount (N P start : Nat) : Nat :=
  if N < start then 0 else (N - start) / P + 1

/-! ## Lemmas about the pagination client -/

lemma normalizeRecords_serverPage (N P start : Nat) :
    normalizeRecords (serverPage N P start) =
      List.range' start (min P (N + 1 - start)) := by
  unfold serverPage
  generalize List.range' start (min P (N + 1 - start)) = l
  rcases l with _ | ⟨a, _ | ⟨b, tl⟩⟩ <;> rfl

lemma get_records_aux_ok_cons {R : Type} (fetch : Nat → PageResult R)
    (P start fuel : Nat) (v : RecordsVal R) (h : fetch start = .ok v)
    (hne : (normalizeRecords v).isEmpty = false) :
    get_records_aux fetch P start (fuel + 1) =
      (normalizeRecords v ++ (get_records_aux fetch P (start + P) fuel).1,
        start :: (get_records_aux fetch P (start + P) fuel).2) := by
  simp [get_records_aux, h, hne]

lemma get_records_aux_ok_empty {R : Type} (fetch : Nat → PageResult R)
    (P start fuel : Nat) (v : RecordsVal R) (h : fetch start = .ok v)
    (hemp : (normalizeRecords v).isEmpty = true) :
    get_records_aux fetch P start (fuel + 1) = ([], [start]) := by
  simp [get_records_aux, h, hemp]

lemma get_records_aux_transport {R : Type} (fetch : Nat → PageResult R)
    (P start fuel : Nat) (h : fetch start = .transportErr) :
    get_records_aux fetch P start (fuel + 1) = ([], [start]) := by
  simp [get_records_aux, h]

lemma get_records_aux_process {R : Type} (fetch : Nat → PageResult R)
    (P start fuel : Nat) (h : fetch start = .processErr) :
    get_records_aux fetch P start (fuel + 1) = ([], [start]) := by
  simp [get_records_aux, h]

lemma reqCount_step (N P start : Nat) (hP : 1 ≤ P) (h : start ≤ N) :
    reqCount N P start = reqCount N P (start + P) + 1 := by
  unfold reqCount
  rcases le_or_lt (start + P) N with h2 | h2
  · rw [if_neg (by omega), if_neg (by omega)]
    have h3 : P ≤ N - start := by omega
    have h4 : N - start - P = N - (start + P) := by omega
    rw [Nat.div_eq_sub_div (by omega) h3, h4]
  · rw [if_neg (by omega), if_pos (by omega)]
    have h3 : (N - start) / P = 0 := Nat.div_eq_of_lt (by omega)
    omega

lemma get_records_server_spec (N P : Nat) (hP : 1 ≤ P) :
    ∀ fuel start, 1 ≤ start → reqCount N P start < fuel →
      get_records_aux (serverFetch N P) P start fuel =
        (List.range' start (N + 1 - start),
          List.range' start (reqCount N P start + 1) P) := by
  intro fuel
  induction fuel with
  | zero => intro start _ h; exact absurd h (Nat.not_lt_zero _)
  | succ fuel ih =>
    intro start h1 h2
    have hfetch : serverFetch N P start = .ok (serverPage N P start) := rfl
    rcases le_or_lt start N with hle | hgt
    · have hne : (normalizeRecords (serverPage N P start)).isEmpty = false := by
        rw [normalizeRecords_serverPage]
        simp only [List.isEmpty_eq_false, ne_eq, List.range'_eq_nil]
        omega
      rw [get_records_aux_ok_cons (serverFetch N P) P start fuel _ hfetch hne]
      have hreq : reqCount N P start = reqCount N P (start + P) + 1 :=
        reqCount_step N P start hP hle
      rw [ih (start + P) (by omega) (by omega)]
      rw [normalizeRecords_serverPage]
      simp only [Prod.mk.injEq]
      refine ⟨?_, ?_⟩
      · show List.range' start (min P (N + 1 - start)) ++
          List.range' (start + P) (N + 1 - (start + P)) =
            List.range' start (N + 1 - start)
        rcases le_or_lt (start + P) (N + 1) with h3 | h3
        · have hmin : min P (N + 1 - start) = P := by omega
          rw [hmin]
          have := List.range'_append start P (N + 1 - (start + P)) 1
          simp only [Nat.mul_one, Nat.one_mul] at this
          rw [show start + P = start + 1 * P by omega] at this ⊢
          rw [this]
          congr 1
          omega
        · have hmin : min P (N + 1 - start) = N + 1 - start := by omega
          have hz : N + 1 - (start + P) = 0 := by omega
          rw [hmin, hz]
          simp
      · show start :: List.range' (start + P) (reqCount N P (start + P) + 1) P =
          List.range' start (reqCount N P start + 1) P
        rw [hreq]
        simp [List.range'_succ]
    · have hemp : (normalizeRecords (serverPage N P start)).isEmpty = true := by
        rw [normalizeRecords_serverPage]
        simp only [List.isEmpty_eq_true, List.range'_eq_nil]
        omega
      rw [get_records_aux_ok_empty (serverFetch N P) P start fuel _ hfetch hemp]
      have hz : N + 1 - start = 0 := by omega
      have hr : reqCount N P start = 0 := by unfold reqCount; rw [if_pos hgt]
      rw [hz, hr]
      simp

lemma range'_pairwise_lt (step : Nat) (hstep : 1 ≤ step) :
    ∀ (n s : Nat), (List.range' s n step).Pairwise (· < ·) := by
  intro n
  induction n with
  | zero => intro s; simp
  | succ n ih =>
    intro s
    rw [List.range'_succ]
    refine List.Pairwise.cons ?_ (ih (s + step))
    intro x hx
    rcases List.mem_range'.1 hx with ⟨i, _, rfl⟩
    omega

/-- Claim C4: for every page size P and total available record count N,
the paginated query client yields exactly the N available records in
order and terminates (the result is fuel-independent once the fuel covers
the pages); it keeps a 1-based offset advancing by the page size,
normalizes scalar pages (built into `serverPage` via `RecordsVal.one`),
the requested offsets are strictly increasing (no page is ever fetched
twice), every offset but the last one served a nonempty page, and the
last requested offset is the empty page on which the client stopped, so
no page is re-fetched once an empty page is observed. -/
theorem claim_C4 (N P fuel : Nat) (hP : 1 ≤ P) (hfuel : N + 1 ≤ fuel) :
    (get_records (serverFetch N P) P fuel).1 = List.range' 1 N ∧
    (get_records (serverFetch N P) P fuel).2 =
      List.range' 1 (pagesFetched N P) P ∧
    ((get_records (serverFetch N P) P fuel).2).Pairwise (· < ·) ∧
    (∀ o ∈ ((get_records (serverFetch N P) P fuel).2).dropLast,
      normalizeRecords (serverPage N P o) ≠ []) ∧
    normalizeRecords (serverPage N P
      (((get_records (serverFetch N P) P fuel).2).getLastD 0)) = [] := by
  have hreq : reqCount N P 1 < fuel := by
    unfold reqCount
    rcases Nat.eq_zero_or_pos N with h | h
    · rw [if_pos (by omega)]; omega
    · rw [if_neg (by omega)]
      have := Nat.div_le_self (N - 1) P
      omega
  have hspec := get_records_server_spec N P hP fuel 1 (by omega) hreq
  have hq : pagesFetched N P = reqCount N P 1 + 1 := by
    unfold pagesFetched reqCount
    rcases Nat.eq_zero_or_pos N with h | h
    · rw [if_pos h, if_pos (by omega)]
    · rw [if_neg (by omega), if_neg (by omega)]
  have h1N : N + 1 - 1 = N := by omega
  unfold get_records
  rw [hspec, h1N, hq]
  have hsplit : List.range' 1 (reqCount N P 1 + 1) P =
      List.range' 1 (reqCount N P 1) P ++ [1 + P * reqCount N P 1] :=
    List.range'_concat 1 (reqCount N P 1)
  refine ⟨rfl, rfl, range'_pairwise_lt P hP _ 1, ?_, ?_⟩
  · intro o ho
    rw [hsplit, List.dropLast_concat] at ho
    rcases List.mem_range'.1 ho with ⟨i, hi, rfl⟩
    have hNpos : 1 ≤ N := by
      by_contra h
      have : reqCount N P 1 = 0 := by unfold reqCount; rw [if_pos (by omega)]
      omega
    have hiq : i ≤ (N - 1) / P := by
      unfold reqCount at hi
      rw [if_neg (by omega)] at hi
      omega
    have hb : P * i ≤ P * ((N - 1) / P) := Nat.mul_le_mul_left P hiq
    have hb2 : (N - 1) / P * P ≤ N - 1 := Nat.div_mul_le_self (N - 1) P
    have hb3 : P * ((N - 1) / P) = (N - 1) / P * P := Nat.mul_comm _ _
    rw [normalizeRecords_serverPage]
    simp only [ne_eq, List.range'_eq_nil]
    omega
  · rw [hsplit, List.getLastD_concat]
    rw [normalizeRecords_serverPage]
    simp only [List.range'_eq_nil]
    rcases Nat.eq_zero_or_pos N with h | h
    · have hq0 : reqCount N P 1 = 0 := by unfold reqCount; rw [if_pos (by omega)]
      omega
    · have hql : reqCount N P 1 = (N - 1) / P + 1 := by
        unfold reqCount; rw [if_neg (by omega)]
      have e : P * reqCount N P 1 = P * ((N - 1) / P) + P := by
        rw [hql]; ring
      have hdm : P * ((N - 1) / P) + (N - 1) % P = N - 1 :=
        Nat.div_add_mod (N - 1) P
      have hmod : (N - 1) % P < P := Nat.mod_lt _ (by omega)
      omega

/-- Witness for claim C4 at N = 5 records, page size P = 2, fuel 6: the
client yields records 1 to 5 and requests offsets 1, 3, 5, 7, the last
one being the empty page. -/
theorem claim_C4_witness :
    (get_records (serverFetch 5 2) 2 6).1 = List.range' 1 5 ∧
    (get_records (serverFetch 5 2) 2 6).2 =
      List.range' 1 (pagesFetched 5 2) 2 ∧
    ((get_records (serverFetch 5 2) 2 6).2).Pairwise (· < ·) ∧
    (∀ o ∈ ((get_records (serverFetch 5 2) 2 6).2).dropLast,
      normalizeRecords (serverPage 5 2 o) ≠ []) ∧
    normalizeRecords (serverPage 5 2
      (((get_records (serverFetch 5 2) 2 6).2).getLastD 0)) = [] :=
  claim_C4 5 2 6 (by decide) (by decide)

lemma pageSeq_cons_shift {R : Type} (p : PageResult R)
    (pages : List (PageResult R)) (P : Nat) (hP : 1 ≤ P) (k : Nat) :
    pageSeq (p :: pages) P (1 + (k + 1) * P) = pageSeq pages P (1 + k * P) := by
  unfold pageSeq
  have h1 : (1 + (k + 1) * P - 1) / P = k + 1 := by
    rw [show 1 + (k + 1) * P - 1 = (k + 1) * P by omega]
    exact Nat.mul_div_cancel _ (by omega)
  have h2 : (1 + k * P - 1) / P = k := by
    rw [show 1 + k * P - 1 = k * P by omega]
    exact Nat.mul_div_cancel _ (by omega)
  rw [h1, h2]
  rfl

lemma get_records_aux_shift {R : Type} (P : Nat) (hP : 1 ≤ P)
    (p : PageResult R) (pages : List (PageResult R)) :
    ∀ fuel k,
      (get_records_aux (pageSeq (p :: pages) P) P (1 + (k + 1) * P) fuel).1 =
        (get_records_aux (pageSeq pages P) P (1 + k * P) fuel).1 := by
  intro fuel
  induction fuel with
  | zero => intro k; rfl
  | succ fuel ih =>
    intro k
    have hidx := pageSeq_cons_shift p pages P hP k
    rcases hv : pageSeq pages P (1 + k * P) with v | _ | _
    · rcases he : (normalizeRecords v).isEmpty with _ | _
      · rw [get_records_aux_ok_cons _ P _ fuel v (hidx.trans hv) he,
          get_records_aux_ok_cons _ P _ fuel v hv he]
        have e1 : 1 + (k + 1) * P + P = 1 + (k + 1 + 1) * P := by ring
        have e2 : 1 + k * P + P = 1 + (k + 1) * P := by ring
        rw [e1, e2]
        simp only [List.append_cancel_left_eq]
        exact ih (k + 1)
      · rw [get_records_aux_ok_empty _ P _ fuel v (hidx.trans hv) he,
          get_records_aux_ok_empty _ P _ fuel v hv he]
    · rw [get_records_aux_transport _ P _ fuel (hidx.trans hv),
        get_records_aux_transport _ P _ fuel hv]
    · rw [get_records_aux_process _ P _ fuel (hidx.trans hv),
        get_records_aux_process _ P _ fuel hv]

lemma pageSeq_head {R : Type} (p : PageResult R) (pages : List (PageResult R))
    (P : Nat) : pageSeq (p :: pages) P 1 = p := by
  unfold pageSeq
  rw [show (1 - 1) / P = 0 by simp]
  rfl

lemma records_terminal_head {R : Type} (P : Nat) (x : PageResult R)
    (rest : List (PageResult R)) (fuel : Nat) (hx : isTerminal x = true) :
    (get_records (pageSeq (x :: rest) P) P fuel).1 = [] := by
  unfold get_records
  cases fuel with
  | zero => rfl
  | succ fuel =>
    rcases x with v | _ | _
    · have he : (normalizeRecords v).isEmpty = true := hx
      rw [get_records_aux_ok_empty _ P _ fuel v (pageSeq_head _ rest P) he]
    · rw [get_records_aux_transport _ P _ fuel (pageSeq_head _ rest P)]
    · rw [get_records_aux_process _ P _ fuel (pageSeq_head _ rest P)]

lemma records_terminal_congr {R : Type} (P : Nat) (hP : 1 ≤ P) :
    ∀ (ps : List (PageResult R)) (x y : PageResult R)
      (rest rest2 : List (PageResult R)) (fuel : Nat),
      isTerminal x = true → isTerminal y = true →
      (get_records (pageSeq (ps ++ x :: rest) P) P fuel).1 =
        (get_records (pageSeq (ps ++ y :: rest2) P) P fuel).1 := by
  intro ps
  induction ps with
  | nil =>
    intro x y rest rest2 fuel hx hy
    rw [List.nil_append, List.nil_append, records_terminal_head P x rest fuel hx,
      records_terminal_head P y rest2 fuel hy]
  | cons p ps ih =>
    intro x y rest rest2 fuel hx hy
    cases fuel with
    | zero => rfl
    | succ fuel =>
      unfold get_records
      rw [List.cons_append, List.cons_append]
      cases p with
      | ok v =>
        have hh1 : pageSeq (PageResult.ok v :: (ps ++ x :: rest)) P 1 =
            PageResult.ok v := pageSeq_head _ _ P
        have hh2 : pageSeq (PageResult.ok v :: (ps ++ y :: rest2)) P 1 =
            PageResult.ok v := pageSeq_head _ _ P
        rcases he : (normalizeRecords v).isEmpty with _ | _
        · rw [get_records_aux_ok_cons _ P _ fuel v hh1 he,
            get_records_aux_ok_cons _ P _ fuel v hh2 he]
          simp only [List.append_cancel_left_eq]
          rw [show (1 : Nat) + P = 1 + (0 + 1) * P by ring]
          rw [get_records_aux_shift P hP (PageResult.ok v) (ps ++ x :: rest)
              fuel 0,
            get_records_aux_shift P hP (PageResult.ok v) (ps ++ y :: rest2)
              fuel 0]
          simp only [Nat.zero_mul, Nat.add_zero]
          have hih := ih x y rest rest2 fuel hx hy
          unfold get_records at hih
          exact hih
        · rw [get_records_aux_ok_empty _ P _ fuel v hh1 he,
            get_records_aux_ok_empty _ P _ fuel v hh2 he]
      | transportErr =>
        have hh1 : pageSeq (PageResult.transportErr :: (ps ++ x :: rest)) P 1 =
            PageResult.transportErr := pageSeq_head _ _ P
        have hh2 : pageSeq (PageResult.transportErr :: (ps ++ y :: rest2)) P 1 =
            PageResult.transportErr := pageSeq_head _ _ P
        rw [get_records_aux_transport _ P _ fuel hh1,
          get_records_aux_transport _ P _ fuel hh2]
      | processErr =>
        have hh1 : pageSeq (PageResult.processErr :: (ps ++ x :: rest)) P 1 =
            PageResult.processErr := pageSeq_head _ _ P
        have hh2 : pageSeq (PageResult.processErr :: (ps ++ y :: rest2)) P 1 =
            PageResult.processErr := pageSeq_head _ _ P
        rw [get_records_aux_process _ P _ fuel hh1,
          get_records_aux_process _ P _ fuel hh2]

lemma records_whole_pages {R : Type} (P : Nat) (hP : 1 ≤ P) :
    ∀ (ps : List (PageResult R)) (x : PageResult R)
      (rest : List (PageResult R)) (fuel : Nat),
      (∀ p ∈ ps, isTerminal p = false) → isTerminal x = true →
      ps.length < fuel →
      (get_records (pageSeq (ps ++ x :: rest) P) P fuel).1 =
        (ps.map okRecords).flatten := by
  intro ps
  induction ps with
  | nil =>
    intro x rest fuel _ hx _
    simp only [List.nil_append, List.map_nil, List.flatten_nil]
    exact records_terminal_head P x rest fuel hx
  | cons p ps ih =>
    intro x rest fuel hok hx hf
    have hf2 : ps.length < fuel - 1 + 1 := by
      simp only [List.length_cons] at hf
      omega
    cases fuel with
    | zero => simp at hf
    | succ fuel =>
      unfold get_records
      rw [List.cons_append]
      have hp : isTerminal p = false := hok p (List.mem_cons_self p ps)
      cases p with
      | ok v =>
        have he : (normalizeRecords v).isEmpty = false := hp
        rw [get_records_aux_ok_cons _ P _ fuel v (pageSeq_head _ _ P) he]
        simp only [List.map_cons, List.flatten_cons, okRecords,
          List.append_cancel_left_eq]
        rw [show (1 : Nat) + P = 1 + (0 + 1) * P by ring]
        rw [get_records_aux_shift P hP (PageResult.ok v) (ps ++ x :: rest)
            fuel 0]
        simp only [Nat.zero_mul, Nat.add_zero]
        have hih := ih x rest fuel
          (fun q hq => hok q (List.mem_cons_of_mem _ hq)) hx
          (by simp only [List.length_cons] at hf; omega)
        unfold get_records at hih
        exact hih
      | transportErr => exact absurd hp (by simp [isTerminal])
      | processErr => exact absurd hp (by simp [isTerminal])

/-- Claim C9: any exception raised while processing a page response, an
XML-parse failure or unexpected shape (`processErr`) as much as a
transport failure (`transportErr`), silently terminates the record
sequence after the already-yielded records: the caller-visible record
list is identical to the one produced when the same position holds a
transport failure, and identical to the one produced when the result set
is simply exhausted there (an empty page). -/
theorem claim_C9 {R : Type} (P fuel : Nat) (hP : 1 ≤ P)
    (ps rest rest2 rest3 : List (PageResult R)) :
    (get_records (pageSeq (ps ++ PageResult.processErr :: rest) P) P fuel).1 =
      (get_records (pageSeq (ps ++ PageResult.transportErr :: rest2) P)
        P fuel).1 ∧
    (get_records (pageSeq (ps ++ PageResult.processErr :: rest) P) P fuel).1 =
      (get_records (pageSeq (ps ++ PageResult.ok RecordsVal.absent :: rest3) P)
        P fuel).1 :=
  ⟨records_terminal_congr P hP ps _ _ rest rest2 fuel rfl rfl,
    records_terminal_congr P hP ps _ _ rest rest3 fuel rfl rfl⟩

/-- Witness for claim C9: after one page of two records, a processing
error, a transport error and normal exhaustion are indistinguishable in
the yielded records. -/
theorem claim_C9_witness :
    (get_records (pageSeq ([PageResult.ok (RecordsVal.many [1, 2])] ++
        PageResult.processErr :: ([] : List (PageResult Nat))) 100) 100 5).1 =
      (get_records (pageSeq ([PageResult.ok (RecordsVal.many [1, 2])] ++
        PageResult.transportErr :: ([] : List (PageResult Nat))) 100) 100 5).1 ∧
    (get_records (pageSeq ([PageResult.ok (RecordsVal.many [1, 2])] ++
        PageResult.processErr :: ([] : List (PageResult Nat))) 100) 100 5).1 =
      (get_records (pageSeq ([PageResult.ok (RecordsVal.many [1, 2])] ++
        PageResult.ok RecordsVal.absent :: ([] : List (PageResult Nat)))
          100) 100 5).1 :=
  claim_C9 100 5 (by decide) [PageResult.ok (RecordsVal.many [1, 2])] [] [] []

/-- Claim C10: the record sequence is page-atomic under failure: when the
pages before the failing one are whole nonempty pages, a transport or
processing failure at the next page terminates the sequence with exactly
the concatenation of those whole pages; a failure never surfaces a proper
prefix of a page (a page is fetched and decoded before any of its records
is yielded). -/
theorem claim_C10 {R : Type} (P fuel : Nat) (hP : 1 ≤ P)
    (ps rest : List (PageResult R)) (e : PageResult R)
    (herr : e = PageResult.transportErr ∨ e = PageResult.processErr)
    (hok : ∀ p ∈ ps, isTerminal p = false)
    (hfuel : ps.length < fuel) :
    (get_records (pageSeq (ps ++ e :: rest) P) P fuel).1 =
      (ps.map okRecords).flatten := by
  have he : isTerminal e = true := by rcases herr with h | h <;> rw [h] <;> rfl
  exact records_whole_pages P hP ps e rest fuel hok he hfuel

/-- Witness for claim C10: two whole pages (one list page, one scalar
page) followed by a transport failure yield exactly records 1, 2, 3. -/
theorem claim_C10_witness :
    (get_records (pageSeq ([PageResult.ok (RecordsVal.many [1, 2]),
        PageResult.ok (RecordsVal.one 3)] ++
        PageResult.transportErr :: ([] : List (PageResult Nat))) 100)
        100 4).1 =
      ([PageResult.ok (RecordsVal.many [1, 2]),
        PageResult.ok (RecordsVal.one 3)].map okRecords).flatten :=
  claim_C10 100 4 (by decide) _ [] PageResult.transportErr (Or.inl rfl)
    (by decide) (by decide)


/-! ## Lemmas about the record extractor -/

lemma pyTruthy_none : pyTruthy none = false := rfl

lemma pyTruthy_some_ne (s : String) (h : s ≠ "") : pyTruthy (some s) = true := by
  have h2 : s.isEmpty = false := by
    by_contra hc
    rw [Bool.not_eq_false] at hc
    exact h ((String.isEmpty_iff s).1 hc)
  show (!s.isEmpty) = true
  rw [h2]
  rfl

lemma wf_manifestationUrl (items : List ItemUrl) (hwf : wfItems items)
    (m : String) :
    manifestationUrl items m = none ∨
      ∃ s, manifestationUrl items m = some s ∧ s ≠ "" := by
  unfold manifestationUrl
  cases hf : items.find? (fun i => i.manifestation == some m) with
  | none => exact Or.inl rfl
  | some i =>
    have hmem : i ∈ items := List.mem_of_find?_eq_some hf
    rcases hwf i hmem with ⟨s, hs, hne⟩
    refine Or.inr ⟨s, ?_, hne⟩
    exact hs

/-- Claim C3: the extractor selects the target URL with tier priority
xml-nl over xml over pdf over the bare `gzd:url` field, where each tier
takes the first-encountered manifestation in declaration order
(`manifestationUrl` stops at the first matching item): on records whose
manifestation entries are genuine (kind, URL) pairs, the selection of
`parse_record` agrees with the spec-side priority chain; in particular a
record carrying an xml-nl manifestation selects its URL also when an xml
manifestation is present, and when no URL of any kind is present the
record is dropped (`parse_record` returns none). -/
theorem claim_C3 (r : SruRecord) (items : List ItemUrl)
    (hitems : items = normalizeItems r.enrichedData.itemUrl)
    (hwf : wfItems items) :
    target_stage items r.enrichedData.url =
        specPriorityUrl items r.enrichedData.url ∧
    (∀ u, manifestationUrl items "xml-nl" = some u →
      target_stage items r.enrichedData.url = some u) ∧
    (target_stage items r.enrichedData.url = none →
      ∀ fetch, parse_record fetch r = none) := by
  have ha := wf_manifestationUrl items hwf "xml-nl"
  have hb := wf_manifestationUrl items hwf "xml"
  have hc := wf_manifestationUrl items hwf "pdf"
  have heq : target_stage items r.enrichedData.url =
      specPriorityUrl items r.enrichedData.url := by
    rcases ha with ha | ⟨sa, ha, hna⟩
    · rcases hb with hb | ⟨sb, hb, hnb⟩
      · rcases hc with hc | ⟨sc, hc, hnc⟩
        · simp [target_stage, specPriorityUrl, xml_stage, pdf_stage, pyOr,
            ha, hb, hc, pyTruthy_none]
        · simp [target_stage, specPriorityUrl, xml_stage, pdf_stage, pyOr,
            ha, hb, hc, pyTruthy_none, pyTruthy_some_ne sc hnc]
      · simp [target_stage, specPriorityUrl, xml_stage, pdf_stage, pyOr,
          ha, hb, pyTruthy_none, pyTruthy_some_ne sb hnb]
    · simp [target_stage, specPriorityUrl, xml_stage, pdf_stage, pyOr,
        ha, pyTruthy_some_ne sa hna]
  refine ⟨heq, ?_, ?_⟩
  · intro u hu
    rcases ha with ha | ⟨sa, ha, hna⟩
    · rw [ha] at hu; cases hu
    · rw [ha] at hu
      cases hu
      rw [heq]
      unfold specPriorityUrl
      rw [ha]
      rfl
  · intro htgt fetch
    simp only [parse_record]
    rw [← hitems, htgt]
    rfl

/-- Witness for claim C3 at a concrete record carrying an xml-nl and an
xml manifestation plus a bare URL field: the instantiated conjunction of
the priority properties. -/
theorem claim_C3_witness :
    target_stage [⟨some "xml-nl", some "u1"⟩, ⟨some "xml", some "u2"⟩]
        (⟨⟨RecordsVal.many [⟨some "xml-nl", some "u1"⟩,
          ⟨some "xml", some "u2"⟩], some "u4"⟩⟩ :
            SruRecord).enrichedData.url =
      specPriorityUrl [⟨some "xml-nl", some "u1"⟩, ⟨some "xml", some "u2"⟩]
        (⟨⟨RecordsVal.many [⟨some "xml-nl", some "u1"⟩,
          ⟨some "xml", some "u2"⟩], some "u4"⟩⟩ :
            SruRecord).enrichedData.url ∧
    (∀ u, manifestationUrl [⟨some "xml-nl", some "u1"⟩,
        ⟨some "xml", some "u2"⟩] "xml-nl" = some u →
      target_stage [⟨some "xml-nl", some "u1"⟩, ⟨some "xml", some "u2"⟩]
        (⟨⟨RecordsVal.many [⟨some "xml-nl", some "u1"⟩,
          ⟨some "xml", some "u2"⟩], some "u4"⟩⟩ :
            SruRecord).enrichedData.url = some u) ∧
    (target_stage [⟨some "xml-nl", some "u1"⟩, ⟨some "xml", some "u2"⟩]
        (⟨⟨RecordsVal.many [⟨some "xml-nl", some "u1"⟩,
          ⟨some "xml", some "u2"⟩], some "u4"⟩⟩ :
            SruRecord).enrichedData.url = none →
      ∀ fetch, parse_record fetch
        (⟨⟨RecordsVal.many [⟨some "xml-nl", some "u1"⟩,
          ⟨some "xml", some "u2"⟩], some "u4"⟩⟩ : SruRecord) = none) := by
  refine claim_C3 _ _ rfl ?_
  intro i hi
  simp only [List.mem_cons, List.not_mem_nil, or_false] at hi
  rcases hi with h | h
  · exact ⟨"u1", by rw [h], by decide⟩
  · exact ⟨"u2", by rw [h], by decide⟩

/-- Claim C6: for a record whose selected URL is not an XML manifestation
(the `xml_url` stage is falsy while a target URL is selected, that is a
pdf manifestation or the bare URL field won), `parse_record` produces the
document with Content equal to the fixed placeholder string, and the
result does not depend on the content-fetch oracle: no network fetch for
content is performed in this branch. -/
theorem claim_C6 (r : SruRecord) (items : List ItemUrl)
    (hitems : items = normalizeItems r.enrichedData.itemUrl)
    (hxml : pyTruthy (xml_stage items) = false)
    (htgt : pyTruthy (target_stage items r.enrichedData.url) = true) :
    (∀ fetch, parse_record fetch r =
      some ⟨(target_stage items r.enrichedData.url).getD "", PLACEHOLDER,
        "Verdragenbank"⟩) ∧
    (∀ fetch fetch2, parse_record fetch r = parse_record fetch2 r) := by
  have hmain : ∀ fetch, parse_record fetch r =
      some ⟨(target_stage items r.enrichedData.url).getD "", PLACEHOLDER,
        "Verdragenbank"⟩ := by
    intro fetch
    simp only [parse_record]
    rw [← hitems, htgt, hxml]
    have hph : pyTruthy (some PLACEHOLDER) = true := by decide
    simp [hph]
  exact ⟨hmain, fun fetch fetch2 => (hmain fetch).trans (hmain fetch2).symm⟩

/-- Witness for claim C6: a record with only a pdf manifestation gets the
placeholder Content under two different oracles (one returning content,
one failing), so no fetch influences the branch. -/
theorem claim_C6_witness :
    (∀ fetch, parse_record fetch
      (⟨⟨RecordsVal.many [⟨some "pdf", some "u3"⟩], none⟩⟩ : SruRecord) =
        some ⟨(target_stage [⟨some "pdf", some "u3"⟩]
          (⟨⟨RecordsVal.many [⟨some "pdf", some "u3"⟩], none⟩⟩ :
            SruRecord).enrichedData.url).getD "", PLACEHOLDER,
          "Verdragenbank"⟩) ∧
    (∀ fetch fetch2, parse_record fetch
      (⟨⟨RecordsVal.many [⟨some "pdf", some "u3"⟩], none⟩⟩ : SruRecord) =
        parse_record fetch2
          (⟨⟨RecordsVal.many [⟨some "pdf", some "u3"⟩], none⟩⟩ :
            SruRecord)) :=
  claim_C6 _ [⟨some "pdf", some "u3"⟩] rfl (by decide) (by decide)

/-- Claim C8: for a record whose selected target URL exists and is not an
XML manifestation, extraction always succeeds: the placeholder string is
nonempty, so the empty-content drop branch of `parse_record` is
unreachable and the result is never none, whatever the content oracle
does. -/
theorem claim_C8 (r : SruRecord) (items : List ItemUrl)
    (hitems : items = normalizeItems r.enrichedData.itemUrl)
    (hxml : pyTruthy (xml_stage items) = false)
    (htgt : pyTruthy (target_stage items r.enrichedData.url) = true)
    (fetch : String → Option String) :
    (parse_record fetch r).isSome = true := by
  simp only [parse_record]
  rw [← hitems, htgt, hxml]
  have hph : pyTruthy (some PLACEHOLDER) = true := by decide
  simp [hph]

/-- Witness for claim C8: extraction of a record holding only a bare URL
field succeeds under an oracle that fails every fetch. -/
theorem claim_C8_witness :
    (parse_record (fun _ => none)
      (⟨⟨RecordsVal.absent, some "u4"⟩⟩ : SruRecord)).isSome = true :=
  claim_C8 (⟨⟨RecordsVal.absent, some "u4"⟩⟩ : SruRecord) [] rfl (by decide)
    (by decide) (fun _ => none)

/-! ## Lemmas about the shard writer and orchestrator -/

lemma chunksAux_nil {D : Type} (M : Nat) :
    ∀ f, chunksAux M f ([] : List D) = []
  | 0 => rfl
  | _ + 1 => rfl

lemma chunksAux_fuel {D : Type} (M : Nat) (hM : 1 ≤ M) :
    ∀ (f f2 : Nat) (l : List D), l.length ≤ f → l.length ≤ f2 →
      chunksAux M f l = chunksAux M f2 l := by
  intro f
  induction f with
  | zero =>
    intro f2 l h1 _
    have hl : l = [] := List.eq_nil_of_length_eq_zero (by omega)
    subst hl
    rw [chunksAux_nil, chunksAux_nil]
  | succ f ih =>
    intro f2 l h1 h2
    cases l with
    | nil => rw [chunksAux_nil, chunksAux_nil]
    | cons c cs =>
      cases f2 with
      | zero => simp at h2
      | succ f2 =>
        show (c :: cs).take M :: chunksAux M f ((c :: cs).drop M) =
          (c :: cs).take M :: chunksAux M f2 ((c :: cs).drop M)
        congr 1
        apply ih
        · rw [List.length_drop]
          simp only [List.length_cons] at h1 ⊢
          omega
        · rw [List.length_drop]
          simp only [List.length_cons] at h2 ⊢
          omega

lemma chunksOf_nil {D : Type} (M : Nat) : chunksOf M ([] : List D) = [] := rfl

lemma chunksOf_cons_unfold {D : Type} (M : Nat) (hM : 1 ≤ M) (l : List D)
    (hl : l ≠ []) :
    chunksOf M l = l.take M :: chunksOf M (l.drop M) := by
  unfold chunksOf
  cases l with
  | nil => exact absurd rfl hl
  | cons c cs =>
    show (c :: cs).take M :: chunksAux M cs.length ((c :: cs).drop M) =
      (c :: cs).take M :: chunksAux M ((c :: cs).drop M).length ((c :: cs).drop M)
    congr 1
    apply chunksAux_fuel M hM
    · rw [List.length_drop]
      simp only [List.length_cons]
      omega
    · exact le_rfl

lemma chunksOf_small {D : Type} (M : Nat) (hM : 1 ≤ M) (l : List D)
    (h1 : l ≠ []) (h2 : l.length ≤ M) : chunksOf M l = [l] := by
  rw [chunksOf_cons_unfold M hM l h1, List.take_of_length_le h2,
    List.drop_eq_nil_of_le h2, chunksOf_nil]

lemma chunksOf_append_full {D : Type} (M : Nat) (hM : 1 ≤ M)
    (a b : List D) (ha : a.length = M) :
    chunksOf M (a ++ b) = a :: chunksOf M b := by
  have hane : a ≠ [] := by
    intro h
    rw [h] at ha
    simp at ha
    omega
  have hne : a ++ b ≠ [] := by
    intro h
    rcases List.append_eq_nil.1 h with ⟨h1, _⟩
    exact hane h1
  rw [chunksOf_cons_unfold M hM _ hne, List.take_left' ha, List.drop_left' ha]

lemma chunksOf_flatten {D : Type} (M : Nat) (hM : 1 ≤ M) :
    ∀ (n : Nat) (l : List D), l.length ≤ n → (chunksOf M l).flatten = l := by
  intro n
  induction n with
  | zero =>
    intro l h
    have hl : l = [] := List.eq_nil_of_length_eq_zero (by omega)
    subst hl
    rfl
  | succ n ih =>
    intro l h
    rcases eq_or_ne l [] with hl | hl
    · subst hl; rfl
    · rw [chunksOf_cons_unfold M hM l hl]
      simp only [List.flatten_cons]
      rw [ih (l.drop M) (by rw [List.length_drop]; omega)]
      exact List.take_append_drop M l

lemma chunksOf_length {D : Type} (M : Nat) (hM : 1 ≤ M) :
    ∀ (n : Nat) (l : List D), l.length ≤ n →
      (chunksOf M l).length = (l.length + M - 1) / M := by
  intro n
  induction n with
  | zero =>
    intro l h
    have hl : l = [] := List.eq_nil_of_length_eq_zero (by omega)
    subst hl
    simp [chunksOf_nil, Nat.div_eq_of_lt (by omega : M - 1 < M)]
  | succ n ih =>
    intro l h
    rcases eq_or_ne l [] with hl | hl
    · subst hl
      simp [chunksOf_nil, Nat.div_eq_of_lt (by omega : M - 1 < M)]
    · have hpos : 1 ≤ l.length := by
        rcases l with _ | ⟨c, cs⟩
        · exact absurd rfl hl
        · simp
      rw [chunksOf_cons_unfold M hM l hl]
      simp only [List.length_cons]
      rw [ih (l.drop M) (by rw [List.length_drop]; omega), List.length_drop]
      rw [Nat.div_eq_sub_div (by omega) (by omega : M ≤ l.length + M - 1)]
      have e1 : l.length + M - 1 - M = l.length - 1 := by omega
      rw [e1]
      rcases le_or_lt M l.length with hc | hc
      · have e2 : l.length - M + M - 1 = l.length - 1 := by omega
        rw [e2]
      · have e2 : l.length - M = 0 := by omega
        rw [e2]
        rw [Nat.div_eq_of_lt (by omega : 0 + M - 1 < M),
          Nat.div_eq_of_lt (by omega : l.length - 1 < M)]

lemma chunksOf_mem_le {D : Type} (M : Nat) (hM : 1 ≤ M) :
    ∀ (n : Nat) (l : List D), l.length ≤ n →
      ∀ c ∈ chunksOf M l, c.length ≤ M := by
  intro n
  induction n with
  | zero =>
    intro l h c hc
    have hl : l = [] := List.eq_nil_of_length_eq_zero (by omega)
    subst hl
    simp [chunksOf_nil] at hc
  | succ n ih =>
    intro l h c hc
    rcases eq_or_ne l [] with hl | hl
    · subst hl; simp [chunksOf_nil] at hc
    · rw [chunksOf_cons_unfold M hM l hl] at hc
      rcases List.mem_cons.1 hc with hc | hc
      · subst hc
        rw [List.length_take]
        omega
      · exact ih (l.drop M) (by rw [List.length_drop]; omega) c hc

lemma chunksOf_mem_ne_nil {D : Type} (M : Nat) (hM : 1 ≤ M) :
    ∀ (n : Nat) (l : List D), l.length ≤ n →
      ∀ c ∈ chunksOf M l, c ≠ [] := by
  intro n
  induction n with
  | zero =>
    intro l h c hc
    have hl : l = [] := List.eq_nil_of_length_eq_zero (by omega)
    subst hl
    simp [chunksOf_nil] at hc
  | succ n ih =>
    intro l h c hc
    rcases eq_or_ne l [] with hl | hl
    · subst hl; simp [chunksOf_nil] at hc
    · rw [chunksOf_cons_unfold M hM l hl] at hc
      rcases List.mem_cons.1 hc with hc | hc
      · subst hc
        have hpos : 1 ≤ l.length := by
          rcases l with _ | ⟨x, xs⟩
          · exact absurd rfl hl
          · simp
        intro hcon
        have hlen := congrArg List.length hcon
        rw [List.length_take] at hlen
        simp only [List.length_nil] at hlen
        omega
      · exact ih (l.drop M) (by rw [List.length_drop]; omega) c hc

lemma getLastD_ne_nil {D : Type} (l : List D) (hl : l ≠ []) (d d2 : D) :
    l.getLastD d = l.getLastD d2 := by
  cases l with
  | nil => exact absurd rfl hl
  | cons x xs => rfl

lemma chunksOf_getLastD {D : Type} (M : Nat) (hM : 1 ≤ M) :
    ∀ (n : Nat) (l : List D), l.length ≤ n → l ≠ [] →
      ((chunksOf M l).getLastD []).length =
        if l.length % M = 0 then M else l.length % M := by
  intro n
  induction n with
  | zero =>
    intro l h hl
    have : l = [] := List.eq_nil_of_length_eq_zero (by omega)
    exact absurd this hl
  | succ n ih =>
    intro l h hl
    have hpos : 1 ≤ l.length := by
      rcases l with _ | ⟨x, xs⟩
      · exact absurd rfl hl
      · simp
    rcases le_or_lt l.length M with hc | hc
    · rw [chunksOf_small M hM l hl hc]
      show l.length = _
      rcases eq_or_lt_of_le hc with he | hlt
      · rw [he]
        simp [Nat.mod_self]
      · rw [Nat.mod_eq_of_lt hlt, if_neg (by omega)]
    · rw [chunksOf_cons_unfold M hM l hl]
      have hdne : l.drop M ≠ [] := by
        intro hcon
        rw [List.drop_eq_nil_iff] at hcon
        omega
      have hcne : chunksOf M (l.drop M) ≠ [] := by
        rw [chunksOf_cons_unfold M hM _ hdne]
        simp
      rw [List.getLastD_cons, getLastD_ne_nil _ hcne _ []]
      rw [ih (l.drop M) (by rw [List.length_drop]; omega) hdne]
      rw [List.length_drop]
      have hmod : (l.length - M) % M = l.length % M := by
        have e : l.length = (l.length - M) + M := by omega
        conv_rhs => rw [e]
        rw [Nat.add_mod_right]
      rw [hmod]

lemma crawl_loop_eq_write_loop {R D : Type} (M cap : Nat)
    (process : R → Option D) :
    ∀ (rs : List R) (st : LoopState D),
      crawl_loop M cap process rs st =
        write_loop M cap (rs.filterMap process) st := by
  intro rs
  induction rs with
  | nil => intro st; rfl
  | cons r rs ih =>
    intro st
    cases hp : process r with
    | none =>
      simp only [crawl_loop, hp, List.filterMap_cons]
      exact ih st
    | some d =>
      simp only [crawl_loop, hp, List.filterMap_cons, write_loop]
      by_cases hcap : cap ≤ st.processed + 1
      · simp only [if_pos hcap]
      · by_cases hfull : M ≤ (st.opened ++ [d]).length
        · simp only [if_neg hcap, if_pos hfull]
          exact ih _
        · simp only [if_neg hcap, if_neg hfull]
          exact ih _

lemma write_loop_spec {D : Type} (M cap : Nat) (hM : 1 ≤ M) :
    ∀ (docs : List D) (closed : List (List D)) (opened : List D)
      (processed : Nat), opened.length < M → processed < cap →
      (write_loop M cap docs ⟨closed, opened, processed⟩).closed ++
          [(write_loop M cap docs ⟨closed, opened, processed⟩).opened] =
        closed ++ chunksOf M (opened ++ docs.take (cap - processed)) ++
          (if (opened ++ docs.take (cap - processed)).length = 0 ∨
              ((docs.take (cap - processed)).length ≠ 0 ∧
                (opened ++ docs.take (cap - processed)).length % M = 0 ∧
                docs.length < cap - processed)
            then [[]] else []) ∧
      (write_loop M cap docs ⟨closed, opened, processed⟩).processed =
        processed + (docs.take (cap - processed)).length := by
  intro docs
  induction docs with
  | nil =>
    intro closed opened processed hop hpr
    refine ⟨?_, by simp [write_loop]⟩
    show closed ++ [opened] = _
    simp only [List.take_nil, List.append_nil, List.length_nil]
    by_cases hop0 : opened = []
    · subst hop0
      rw [chunksOf_nil]
      simp
    · rw [chunksOf_small M hM opened hop0 (by omega)]
      rw [if_neg ?_]
      · simp
      · rintro (h | ⟨ha, _⟩)
        · exact hop0 (List.eq_nil_of_length_eq_zero h)
        · exact ha rfl
  | cons d ds ih =>
    intro closed opened processed hop hpr
    have hcp1 : cap - processed = (cap - processed - 1) + 1 := by omega
    have htake : (d :: ds).take (cap - processed) =
        d :: ds.take (cap - processed - 1) := by
      rw [hcp1]
      rfl
    have hwlen : (ds.take (cap - processed - 1)).length =
        min (cap - processed - 1) ds.length := List.length_take _ _
    simp only [write_loop]
    by_cases hcap : cap ≤ processed + 1
    · rw [if_pos hcap]
      have ht1 : (d :: ds).take (cap - processed) = [d] := by
        rw [show cap - processed = 1 by omega]
        rfl
      rw [ht1]
      refine ⟨?_, by simp⟩
      show closed ++ [opened ++ [d]] = _
      rw [chunksOf_small M hM (opened ++ [d]) (by simp) ?_]
      · rw [if_neg ?_]
        · simp
        · rintro (h | ⟨_, _, hc⟩)
          · simp only [List.length_append, List.length_cons,
              List.length_nil] at h
            omega
          · simp only [List.length_cons] at hc
            omega
      · simp only [List.length_append, List.length_cons, List.length_nil]
        omega
    · by_cases hfull : M ≤ (opened ++ [d]).length
      · rw [if_neg hcap, if_pos hfull]
        have hlen : (opened ++ [d]).length = M := by
          simp only [List.length_append, List.length_cons,
            List.length_nil] at hfull ⊢
          omega
        have hsub : cap - (processed + 1) = cap - processed - 1 := by omega
        obtain ⟨h1, h2⟩ := ih (closed ++ [opened ++ [d]]) [] (processed + 1)
          (by simpa using hM) (by omega)
        rw [hsub] at h1 h2
        simp only [List.nil_append] at h1 h2
        refine ⟨?_, ?_⟩
        · rw [h1, htake]
          rw [show opened ++ d :: ds.take (cap - processed - 1) =
            (opened ++ [d]) ++ ds.take (cap - processed - 1) by simp]
          rw [chunksOf_append_full M hM _ _ hlen]
          have hlapp :
              ((opened ++ [d]) ++ ds.take (cap - processed - 1)).length =
                M + (ds.take (cap - processed - 1)).length := by
            rw [List.length_append, hlen]
          rcases Nat.eq_zero_or_pos (ds.take (cap - processed - 1)).length
            with hw0 | hwpos
          · have hds : ds.length = 0 := by omega
            have hcB : ((opened ++ [d]) ++
                ds.take (cap - processed - 1)).length = 0 ∨
                ((d :: ds.take (cap - processed - 1)).length ≠ 0 ∧
                  ((opened ++ [d]) ++
                    ds.take (cap - processed - 1)).length % M = 0 ∧
                  (d :: ds).length < cap - processed) := by
              refine Or.inr ⟨by simp, ?_, ?_⟩
              · rw [hlapp, hw0, Nat.add_zero]
                exact Nat.mod_self M
              · simp only [List.length_cons]
                omega
            rw [if_pos (Or.inl hw0), if_pos hcB]
            simp
          · have hmod : ((opened ++ [d]) ++
                ds.take (cap - processed - 1)).length % M =
                (ds.take (cap - processed - 1)).length % M := by
              rw [hlapp, Nat.add_mod_left]
            have hiff : ((ds.take (cap - processed - 1)).length = 0 ∨
                ((ds.take (cap - processed - 1)).length ≠ 0 ∧
                  (ds.take (cap - processed - 1)).length % M = 0 ∧
                  ds.length < cap - processed - 1)) ↔
                (((opened ++ [d]) ++
                  ds.take (cap - processed - 1)).length = 0 ∨
                ((d :: ds.take (cap - processed - 1)).length ≠ 0 ∧
                  ((opened ++ [d]) ++
                    ds.take (cap - processed - 1)).length % M = 0 ∧
                  (d :: ds).length < cap - processed)) := by
              rw [hmod, hlapp]
              simp only [List.length_cons]
              constructor
              · rintro (h | ⟨ha, hb, hc⟩)
                · omega
                · exact Or.inr ⟨by omega, hb, by omega⟩
              · rintro (h | ⟨ha, hb, hc⟩)
                · omega
                · exact Or.inr ⟨by omega, hb, by omega⟩
            rw [if_congr hiff rfl rfl]
            simp
        · rw [h2, htake]
          simp only [List.length_cons]
          omega
      · rw [if_neg hcap, if_neg hfull]
        have hlt : (opened ++ [d]).length < M := by omega
        have hsub : cap - (processed + 1) = cap - processed - 1 := by omega
        obtain ⟨h1, h2⟩ := ih closed (opened ++ [d]) (processed + 1) hlt
          (by omega)
        rw [hsub] at h1 h2
        refine ⟨?_, ?_⟩
        · rw [h1, htake]
          rw [show (opened ++ [d]) ++ ds.take (cap - processed - 1) =
            opened ++ d :: ds.take (cap - processed - 1) by simp]
          have hclen :
              (opened ++ d :: ds.take (cap - processed - 1)).length =
                opened.length + 1 +
                  (ds.take (cap - processed - 1)).length := by
            simp only [List.length_append, List.length_cons]
            omega
          rcases Nat.eq_zero_or_pos (ds.take (cap - processed - 1)).length
            with hw0 | hwpos
          · have hmodne : (opened ++
                d :: ds.take (cap - processed - 1)).length % M ≠ 0 := by
              rw [hclen, hw0, Nat.add_zero]
              have hsmall : opened.length + 1 < M := by
                simp only [List.length_append, List.length_cons,
                  List.length_nil] at hlt
                omega
              rw [Nat.mod_eq_of_lt hsmall]
              omega
            rw [if_neg ?_, if_neg ?_]
            · rintro (h | ⟨_, hb, _⟩)
              · rw [hclen] at h
                omega
              · exact hmodne hb
            · rintro (h | ⟨_, hb, _⟩)
              · rw [hclen] at h
                omega
              · exact hmodne hb
          · have hiff : ((opened ++
                d :: ds.take (cap - processed - 1)).length = 0 ∨
                ((ds.take (cap - processed - 1)).length ≠ 0 ∧
                  (opened ++
                    d :: ds.take (cap - processed - 1)).length % M = 0 ∧
                  ds.length < cap - processed - 1)) ↔
                ((opened ++
                  d :: ds.take (cap - processed - 1)).length = 0 ∨
                ((d :: ds.take (cap - processed - 1)).length ≠ 0 ∧
                  (opened ++
                    d :: ds.take (cap - processed - 1)).length % M = 0 ∧
                  (d :: ds).length < cap - processed)) := by
              simp only [List.length_cons]
              constructor
              · rintro (h | ⟨ha, hb, hc⟩)
                · exact Or.inl h
                · exact Or.inr ⟨by omega, hb, by omega⟩
              · rintro (h | ⟨ha, hb, hc⟩)
                · exact Or.inl h
                · exact Or.inr ⟨by omega, hb, by omega⟩
            rw [if_congr hiff rfl rfl]
        · rw [h2, htake]
          simp only [List.length_cons]
          omega

lemma run_crawl_spec {R D : Type} (fetch : Nat → PageResult R)
    (P fuel M cap : Nat) (process : R → Option D) (lrd : Option String)
    (now : String) (hM : 1 ≤ M) (hcap : 1 ≤ cap) (docs : List D)
    (hdocs : docs = (get_records fetch P fuel).1.filterMap process) :
    (run_crawl fetch P fuel M cap process lrd now).shards =
      chunksOf M (docs.take cap) ++
        (if (docs.take cap).length = 0 ∨
            ((docs.take cap).length ≠ 0 ∧ (docs.take cap).length % M = 0 ∧
              docs.length < cap)
          then [[]] else []) ∧
    (run_crawl fetch P fuel M cap process lrd now).processed =
      (docs.take cap).length ∧
    (run_crawl fetch P fuel M cap process lrd now).checkpoint =
      (if 0 < (docs.take cap).length ∨ pyTruthy lrd = false
        then some now else lrd) := by
  subst hdocs
  obtain ⟨h1, h2⟩ := write_loop_spec M cap hM
    ((get_records fetch P fuel).1.filterMap process) [] [] 0
    (by simp only [List.length_nil]; omega) (by omega)
  simp only [Nat.sub_zero, List.nil_append, Nat.zero_add] at h1 h2
  unfold run_crawl
  simp only [crawl_loop_eq_write_loop M cap process]
  refine ⟨h1, h2, ?_⟩
  have hcond : (0 < (write_loop M cap
      ((get_records fetch P fuel).1.filterMap process)
      ⟨[], [], 0⟩).processed ∨
      (!pyTruthy lrd) = true) ↔
      (0 < (((get_records fetch P fuel).1.filterMap process).take cap).length
        ∨ pyTruthy lrd = false) := by
    rw [h2, Bool.not_eq_true']
  rw [if_congr hcond rfl rfl]

/-- Claim C7: with a positive configured cap, the run stops early once the
count of successfully extracted-and-written documents reaches the cap:
`processed_count` equals the minimum of the number of extractable records
and the cap, and the documents written into the shard files are exactly
the first cap extractable documents, so no further document is written
after the cap is reached and records whose extraction returns none never
count toward the cap (they pass through `filterMap`). -/
theorem claim_C7 {R D : Type} (fetch : Nat → PageResult R)
    (P fuel M cap : Nat) (process : R → Option D) (lrd : Option String)
    (now : String) (hM : 1 ≤ M) (hcap : 1 ≤ cap) (docs : List D)
    (hdocs : docs = (get_records fetch P fuel).1.filterMap process) :
    (run_crawl fetch P fuel M cap process lrd now).processed =
      min docs.length cap ∧
    (run_crawl fetch P fuel M cap process lrd now).shards.flatten =
      docs.take cap := by
  obtain ⟨h1, h2, _⟩ := run_crawl_spec fetch P fuel M cap process lrd now
    hM hcap docs hdocs
  constructor
  · rw [h2, List.length_take]
    omega
  · rw [h1, List.flatten_append,
      chunksOf_flatten M hM (docs.take cap).length _ le_rfl]
    split <;> simp

/-- Witness for claim C7: four records of which two extract to none, cap
2; the run writes exactly the two extractable documents and reports
processed count 2 = min 2 2. -/
theorem claim_C7_witness :
    (run_crawl (pageSeq [PageResult.ok (RecordsVal.many [1, 2, 3, 4])] 100)
        100 3 1000 2
        (fun n : Nat => if n % 2 = 1 then some n else none)
        (some "t0") "t1").processed = min [1, 3].length 2 ∧
    (run_crawl (pageSeq [PageResult.ok (RecordsVal.many [1, 2, 3, 4])] 100)
        100 3 1000 2
        (fun n : Nat => if n % 2 = 1 then some n else none)
        (some "t0") "t1").shards.flatten = [1, 3].take 2 :=
  claim_C7 _ 100 3 1000 2 _ (some "t0") "t1" (by decide) (by decide)
    [1, 3] (by decide)

/-- Claim C2 counterexample: a fresh run that writes N = 2 documents with
shard capacity M = 2 (an exact multiple, run ended by exhaustion, not the
cap) produces 2 shard files, not ceil(2 / 2) = 1: when the open shard
fills, the loop closes it and immediately opens the next shard file in
write mode, leaving an extra empty shard file behind; the last shard then
holds 0 records rather than the claimed M. -/
theorem claim_C2_counterexample :
    (run_crawl (pageSeq [PageResult.ok (RecordsVal.many [1, 2])] 100) 100 10
        2 250 (fun n : Nat => some n) (some "t0") "t1").processed = 2 ∧
    (run_crawl (pageSeq [PageResult.ok (RecordsVal.many [1, 2])] 100) 100 10
        2 250 (fun n : Nat => some n) (some "t0") "t1").shards =
      [[1, 2], []] ∧
    (run_crawl (pageSeq [PageResult.ok (RecordsVal.many [1, 2])] 100) 100 10
        2 250 (fun n : Nat => some n) (some "t0") "t1").shards.length ≠
      (2 + 2 - 1) / 2 := by
  refine ⟨rfl, rfl, ?_⟩
  decide

/-- Claim C2 (amended): for a fresh run (no existing shard files) that
writes the N = w.length ≥ 1 documents w with shard capacity M, the shard
files are the consecutive M-chunks of w followed by one extra empty shard
file exactly when M divides N and the run was not stopped by the cap
(rotation eagerly opens the next file); consequently there are
ceil(N / M) nonempty shard files, every shard file holds at most M
records, and the last nonempty shard holds N mod M records (or M when
M divides N). -/
theorem claim_C2_amended {R D : Type} (fetch : Nat → PageResult R)
    (P fuel M cap : Nat) (process : R → Option D) (lrd : Option String)
    (now : String) (hM : 1 ≤ M) (hcap : 1 ≤ cap) (w : List D)
    (hw : w = ((get_records fetch P fuel).1.filterMap process).take cap)
    (hne : w ≠ []) :
    (run_crawl fetch P fuel M cap process lrd now).processed = w.length ∧
    (run_crawl fetch P fuel M cap process lrd now).shards =
      chunksOf M w ++
        (if w.length % M = 0 ∧ w.length < cap then [[]] else []) ∧
    (chunksOf M w).length = (w.length + M - 1) / M ∧
    (∀ s ∈ (run_crawl fetch P fuel M cap process lrd now).shards,
      s.length ≤ M) ∧
    ((chunksOf M w).getLastD []).length =
      (if w.length % M = 0 then M else w.length % M) := by
  obtain ⟨h1, h2, _⟩ := run_crawl_spec fetch P fuel M cap process lrd now
    hM hcap ((get_records fetch P fuel).1.filterMap process) rfl
  rw [← hw] at h1 h2
  have hwlen : w.length =
      min cap ((get_records fetch P fuel).1.filterMap process).length := by
    rw [hw, List.length_take]
  have hlpos : 0 < w.length := by
    rcases w with _ | ⟨x, xs⟩
    · exact absurd rfl hne
    · simp
  have hcond : (w.length = 0 ∨ (w.length ≠ 0 ∧ w.length % M = 0 ∧
      ((get_records fetch P fuel).1.filterMap process).length < cap)) ↔
      (w.length % M = 0 ∧ w.length < cap) := by
    constructor
    · rintro (h | ⟨_, hb, hc⟩)
      · omega
      · exact ⟨hb, by omega⟩
    · rintro ⟨ha, hb⟩
      exact Or.inr ⟨by omega, ha, by omega⟩
  rw [if_congr hcond rfl rfl] at h1
  refine ⟨h2, h1, chunksOf_length M hM w.length w le_rfl, ?_,
    chunksOf_getLastD M hM w.length w le_rfl hne⟩
  intro s hs
  rw [h1] at hs
  rcases List.mem_append.1 hs with hs | hs
  · exact chunksOf_mem_le M hM w.length w le_rfl s hs
  · rcases le_or_lt ((if w.length % M = 0 ∧ w.length < cap
        then [[]] else []) : List (List D)).length 0 with _ | _
    all_goals
      revert hs
      split
      · intro hs
        simp only [List.mem_singleton] at hs
        subst hs
        simp only [List.length_nil]
        omega
      · intro hs
        simp at hs

/-- Witness for claim C2 (amended) at 3 documents and capacity 2: shards
are [[1, 2], [3]], ceil(3 / 2) = 2 chunks, all within capacity, last
nonempty shard holds 3 mod 2 = 1 record. -/
theorem claim_C2_witness :
    (run_crawl (pageSeq [PageResult.ok (RecordsVal.many [1, 2, 3])] 100)
        100 3 2 250 (fun n : Nat => some n) (some "t0")
        "t1").processed = [1, 2, 3].length ∧
    (run_crawl (pageSeq [PageResult.ok (RecordsVal.many [1, 2, 3])] 100)
        100 3 2 250 (fun n : Nat => some n) (some "t0") "t1").shards =
      chunksOf 2 [1, 2, 3] ++
        (if [1, 2, 3].length % 2 = 0 ∧ [1, 2, 3].length < 250
          then [[]] else []) ∧
    (chunksOf 2 [1, 2, 3]).length = ([1, 2, 3].length + 2 - 1) / 2 ∧
    (∀ s ∈ (run_crawl (pageSeq [PageResult.ok (RecordsVal.many [1, 2, 3])]
        100) 100 3 2 250 (fun n : Nat => some n) (some "t0")
        "t1").shards, s.length ≤ 2) ∧
    ((chunksOf 2 [1, 2, 3]).getLastD []).length =
      (if [1, 2, 3].length % 2 = 0 then 2 else [1, 2, 3].length % 2) :=
  claim_C2_amended _ 100 3 2 250 _ (some "t0") "t1" (by decide) (by decide)
    [1, 2, 3] (by decide) (by decide)

/-- Claim C1 counterexample: a full-backlog run (no prior checkpoint,
`last_run_date` is none) whose very first page request is a transport
failure writes zero documents, yet the run still rewrites the checkpoint
file: `main` saves whenever `processed_count > 0 or not last_run_date`,
and the swallowed transport failure is invisible to it, so the checkpoint
changes from none to the current time although the claim requires it to
stay unchanged after a TransportFailure with no documents written. -/
theorem claim_C1_counterexample :
    (get_records (pageSeq ([PageResult.transportErr] :
      List (PageResult Nat)) 100) 100 10).1 = [] ∧
    (run_crawl (pageSeq ([PageResult.transportErr] : List (PageResult Nat))
        100) 100 10 1000 250 (fun n : Nat => some n) none
        "t1").processed = 0 ∧
    (run_crawl (pageSeq ([PageResult.transportErr] : List (PageResult Nat))
        100) 100 10 1000 250 (fun n : Nat => some n) none
        "t1").checkpoint ≠ none := by
  refine ⟨rfl, rfl, ?_⟩
  decide

/-- Claim C1 (amended): the checkpoint is unchanged after a run that
yields no extractable record (in particular a run cut short by a
transport failure before any document) only when a prior truthy
checkpoint exists; the checkpoint is rewritten to the current time
whenever the run wrote at least one document, and also whenever no prior
checkpoint was loaded — including a full-backlog run terminated by a
transport failure with zero documents, because the failure is swallowed
by the generator and invisible to the orchestrator. -/
theorem claim_C1_amended {R D : Type} (fetch : Nat → PageResult R)
    (P fuel M cap : Nat) (process : R → Option D) (lrd : Option String)
    (now : String) (hM : 1 ≤ M) (hcap : 1 ≤ cap) :
    ((pyTruthy lrd = true) →
      (∀ r ∈ (get_records fetch P fuel).1, process r = none) →
      (run_crawl fetch P fuel M cap process lrd now).checkpoint = lrd) ∧
    (0 < (run_crawl fetch P fuel M cap process lrd now).processed →
      (run_crawl fetch P fuel M cap process lrd now).checkpoint =
        some now) ∧
    (pyTruthy lrd = false →
      (run_crawl fetch P fuel M cap process lrd now).checkpoint =
        some now) := by
  obtain ⟨_, h2, h3⟩ := run_crawl_spec fetch P fuel M cap process lrd now
    hM hcap ((get_records fetch P fuel).1.filterMap process) rfl
  refine ⟨?_, ?_, ?_⟩
  · intro ht hnone
    have hdocs0 : (get_records fetch P fuel).1.filterMap process = [] :=
      List.filterMap_eq_nil_iff.2 hnone
    rw [h3, hdocs0]
    rw [if_neg ?_]
    rintro (h | h)
    · simp at h
    · rw [ht] at h
      cases h
  · intro hp
    rw [h2] at hp
    rw [h3, if_pos (Or.inl hp)]
  · intro hf
    rw [h3, if_pos (Or.inr hf)]

/-- Witness for claim C1 (amended): an incremental run (prior checkpoint
present) that hits a transport failure at the first page and writes
nothing leaves the checkpoint untouched. -/
theorem claim_C1_witness :
    (run_crawl (pageSeq ([PageResult.transportErr] : List (PageResult Nat))
        100) 100 10 1000 250 (fun n : Nat => some n) (some "t0")
        "t1").checkpoint = some "t0" :=
  (claim_C1_amended (pageSeq ([PageResult.transportErr] :
      List (PageResult Nat)) 100) 100 10 1000 250 (fun n : Nat => some n)
      (some "t0") "t1" (by decide) (by decide)).1 (by decide)
    (by
      intro r hr
      rw [show (get_records (pageSeq ([PageResult.transportErr] :
        List (PageResult Nat)) 100) 100 10).1 = ([] : List Nat)
        from rfl] at hr
      exact absurd hr (List.not_mem_nil r))

/-! ## Character-class facts used by the party-rule analysis -/

theorem ws_cases (c : Char) (h : wsCls c = true) :
    c = ' ' ∨ c = '\t' ∨ c = '\n' ∨ c = '\r' ∨
      c = Char.ofNat 11 ∨ c = Char.ofNat 12 := by
  simp only [wsCls, Bool.or_eq_true, beq_iff_eq] at h
  tauto

theorem ws_not_nameStart (c : Char) (h : wsCls c = true) :
    nameStartCls c = false := by
  rcases ws_cases c h with h | h | h | h | h | h <;> subst h <;> decide

theorem ws_not_nameCls (c : Char) (h : wsCls c = true) :
    nameCls c = false := by
  rcases ws_cases c h with h | h | h | h | h | h <;> subst h <;> decide

theorem ws_not_letter (c : Char) (h : wsCls c = true) :
    asciiLetter c = false := by
  rcases ws_cases c h with h | h | h | h | h | h <;> subst h <;> decide

theorem ws_lowerA (c : Char) (h : wsCls c = true) : lowerA c = c := by
  rcases ws_cases c h with h | h | h | h | h | h <;> subst h <;> decide

theorem letter_not_ws (c : Char) (h : asciiLetter c = true) :
    wsCls c = false := by
  cases hw : wsCls c
  · rfl
  · exfalso
    rcases ws_cases c hw with h2 | h2 | h2 | h2 | h2 | h2 <;> subst h2 <;>
      exact absurd h (by decide)

theorem ws_not_word (c : Char) (h : wsCls c = true) : isWordChar c = false := by
  rcases ws_cases c h with h | h | h | h | h | h <;> subst h <;> decide

theorem letter_word (c : Char) (h : asciiLetter c = true) :
    isWordChar c = true := by
  simp [isWordChar, h]

theorem letter_nameStart (c : Char) (h : asciiLetter c = true) :
    nameStartCls c = true := by
  simp [nameStartCls, h]

theorem nameStart_nameCls (c : Char) (h : nameStartCls c = true) :
    nameCls c = true := by
  simp [nameCls, h]

theorem letter_of_lowerA (c : Char) (h : asciiLetter (lowerA c) = true) :
    asciiLetter c = true := by
  unfold lowerA at h
  by_cases hu : asciiUpper c = true
  · simp [asciiLetter, hu]
  · simp only [hu] at h
    simpa using h

/-! ## Facts about `munch` -/

theorem munch_le (p : Char → Bool) : ∀ l : List Char, munch p l ≤ l.length
  | [] => Nat.le_refl 0
  | c :: cs => by
    unfold munch
    by_cases hc : p c = true
    · simpa [hc] using Nat.succ_le_succ (munch_le p cs)
    · simp [hc]

theorem munch_cons_false (p : Char → Bool) (c : Char) (r : List Char)
    (h : p c = false) : munch p (c :: r) = 0 := by
  unfold munch; simp [h]

theorem munch_zero_head (p : Char → Bool) (l : List Char)
    (h : munch p l = 0) : ∀ c t, l = c :: t → p c = false := by
  intro c t hl
  subst hl
  unfold munch at h
  by_cases hc : p c = true
  · simp [hc] at h
  · simpa using hc

theorem munch_drop_head (p : Char → Bool) :
    ∀ (l : List Char) (c : Char) (t : List Char),
      l.drop (munch p l) = c :: t → p c = false
  | [], c, t => by simp
  | b :: bs, c, t => by
    intro h
    unfold munch at h
    by_cases hb : p b = true
    · simp only [hb, if_true] at h
      exact munch_drop_head p bs c t h
    · simp only [hb, if_false, Bool.false_eq_true, List.drop_zero] at h
      cases h
      simpa using hb

theorem munch_drop_ws (p : Char → Bool) :
    ∀ (l : List Char) (i : Nat), i < munch p l →
      ∃ c t, l.drop i = c :: t ∧ p c = true
  | [], i => by simp [munch]
  | b :: bs, i => by
    intro hi
    unfold munch at hi
    by_cases hb : p b = true
    · simp only [hb, if_true] at hi
      cases i with
      | zero => exact ⟨b, bs, rfl, hb⟩
      | succ j =>
        have := munch_drop_ws p bs j (by omega)
        simpa using this
    · simp [hb] at hi

theorem munch_drop_munch (p : Char → Bool) :
    ∀ (l : List Char) (i : Nat), i ≤ munch p l →
      munch p (l.drop i) = munch p l - i
  | l, 0 => by simp
  | [], i + 1 => by simp [munch]
  | b :: bs, i + 1 => by
    intro hi
    unfold munch at hi
    by_cases hb : p b = true
    · simp only [hb, if_true] at hi
      have h2 := munch_drop_munch p bs i (by omega)
      have h3 : munch p (b :: bs) = munch p bs + 1 := by
        simp [munch, hb]
      simp only [List.drop_succ_cons, h3, h2]
      omega
    · simp [hb] at hi

theorem munch_append_cons (p : Char → Bool) (x : Char) (r : List Char)
    (hx : p x = false) :
    ∀ w : List Char, munch p (w ++ x :: r) = munch p w
  | [] => by simp [munch, hx]
  | b :: bs => by
    unfold munch
    by_cases hb : p b = true
    · simp [hb, munch_append_cons p x r hx bs]
    · simp [hb]

/-! ## Evaluation of the greedy quantifiers under an always-succeeding
continuation -/

theorem tryDown_none (t : Nat → Option (Nat × Nat)) :
    ∀ n : Nat, (∀ j, j ≤ n → t j = none) → tryDown t n
      = none
  | 0, h => by simpa [tryDown] using h 0 (Nat.le_refl 0)
  | n + 1, h => by
    unfold tryDown
    rw [h (n + 1) (Nat.le_refl _), tryDown_none t n fun j hj => h j (by omega)]
    rfl

theorem tryDown_top (t : Nat → Option (Nat × Nat)) :
    ∀ n : Nat, (∀ j, j < n → t j = none) → tryDown t n = t n
  | 0, _ => rfl
  | n + 1, h => by
    unfold tryDown
    rw [tryDown_none t n fun j hj => h j (by omega)]
    cases t (n + 1) <;> rfl

theorem tryDown1_none (t : Nat → Option (Nat × Nat)) :
    ∀ n : Nat, (∀ j, 1 ≤ j → j ≤ n → t j = none) → tryDown1 t n = none
  | 0, _ => rfl
  | n + 1, h => by
    unfold tryDown1
    rw [h (n + 1) (by omega) (Nat.le_refl _),
      tryDown1_none t n fun j h1 hj => h j h1 (by omega)]
    rfl

theorem tryDown1_top (t : Nat → Option (Nat × Nat)) (n : Nat) (hn : 1 ≤ n)
    (h : ∀ j, 1 ≤ j → j < n → t j = none) : tryDown1 t n = t n := by
  cases n with
  | zero => omega
  | succ m =>
    unfold tryDown1
    rw [tryDown1_none t m fun j h1 hj => h j h1 (by omega)]
    cases t (m + 1) <;> rfl

theorem tryDown1_const (g : Nat → Option (Nat × Nat))
    (hg : ∀ i, 1 ≤ i → (g i).isSome = true) :
    ∀ n : Nat, tryDown1 g n = if n = 0 then none else g n
  | 0 => rfl
  | n + 1 => by
    unfold tryDown1
    have := hg (n + 1) (by omega)
    cases hgn : g (n + 1) with
    | none => rw [hgn] at this; simp at this
    | some r => simp [hgn]

theorem pNameWord_eval (k : K) (f : List Char → Nat × Nat)
    (hk : ∀ p u, k p u = some (f u)) (prev : Option Char) (u : List Char) :
    pNameWord k prev u =
      match nameWordLen u with
      | some n => some (f (u.drop n))
      | none => none := by
  cases u with
  | nil => rfl
  | cons c cs =>
    show (if nameStartCls c = true then pPlusCls nameCls k (some c) cs
      else none) = _
    by_cases hc : nameStartCls c = true
    · rw [if_pos hc]
      unfold pPlusCls
      have hg : ∀ i, 1 ≤ i →
          ((fun i => k (prevAfter (some c) cs i) (cs.drop i)) i).isSome
            = true := by
        intro i _
        simp only []
        rw [hk]
        rfl
      rw [tryDown1_const _ hg]
      simp only [hk]
      by_cases hm : munch nameCls cs = 0
      · simp [nameWordLen, hc, hm]
      · have h1 : 1 ≤ munch nameCls cs := Nat.one_le_iff_ne_zero.mpr hm
        have hd : (c :: cs).drop (1 + munch nameCls cs)
            = cs.drop (munch nameCls cs) := by
          rw [Nat.add_comm]
          rfl
        simp [nameWordLen, hc, hm, h1, hd]
    · simp only [if_neg hc]
      have : nameWordLen (c :: cs) = none := by
        simp [nameWordLen, hc]
      rw [this]

theorem pStarName_eval (k : K) (f : List Char → Nat × Nat)
    (hk : ∀ p u, k p u = some (f u)) (prev : Option Char) (v : List Char) :
    pStarCls wsCls (pNameWord k) prev v =
      match starNameLen v with
      | some n => some (f (v.drop n))
      | none => none := by
  unfold pStarCls
  have hsm : ∀ j, j < munch wsCls v →
      (fun i => pNameWord k (prevAfter prev v i) (v.drop i)) j = none := by
    intro j hj
    simp only []
    rw [pNameWord_eval k f hk]
    obtain ⟨cj, tj, hdrop, hws⟩ := munch_drop_ws wsCls v j hj
    rw [hdrop]
    have hn : nameWordLen (cj :: tj) = none := by
      simp [nameWordLen, ws_not_nameStart cj hws]
    rw [hn]
  rw [tryDown_top _ _ hsm]
  rw [pNameWord_eval k f hk]
  unfold starNameLen
  cases hnw : nameWordLen (v.drop (munch wsCls v)) with
  | none => rfl
  | some n =>
    simp only []
    rw [List.drop_drop, Nat.add_comm]

theorem pInitial_eval (k : K) (f : List Char → Nat × Nat)
    (hk : ∀ p u, k p u = some (f u)) (prev : Option Char) (w : List Char) :
    pInitial (pStarCls wsCls (pNameWord k)) prev w =
      match initLen w with
      | some n => some (f (w.drop n))
      | none => none := by
  unfold pInitial pDot
  cases w with
  | nil => rfl
  | cons l w1 =>
    cases w1 with
    | nil =>
      simp only [pTok, initLen]
      by_cases hl : asciiLetter l = true <;> simp [hl]
    | cons d v =>
      simp only [pTok]
      by_cases hl : asciiLetter l = true
      · rw [if_pos hl]
        by_cases hd : (d == '.') = true
        · have hde : d = '.' := by simpa using hd
          rw [if_pos hd, pStarName_eval k f hk]
          subst hde
          have hinit : initLen (l :: '.' :: v) =
              match starNameLen v with
              | some n => some (2 + n)
              | none => none := by
            simp [initLen, hl]
          rw [hinit]
          cases hsv : starNameLen v with
          | none => rfl
          | some n =>
            have hdrop : (l :: '.' :: v).drop (2 + n) = v.drop n := by
              rw [Nat.add_comm]
              simp [List.drop_succ_cons]
            simp only [hdrop]
        · rw [if_neg hd]
          have hde : ¬d = '.' := by simpa using hd
          simp [initLen, hde]
      · rw [if_neg hl]
        simp [initLen, hl]

theorem pBody_eval (k : K) (f : List Char → Nat × Nat)
    (hk : ∀ p u, k p u = some (f u)) (prev : Option Char) (w : List Char) :
    pOpt pInitial (pStarCls wsCls (pNameWord k)) prev w =
      match bodyLen w with
      | some n => some (f (w.drop n))
      | none => none := by
  unfold pOpt
  rw [pInitial_eval k f hk, pStarName_eval k f hk]
  unfold bodyLen
  cases hin : initLen w with
  | some n => simp
  | none =>
    cases hsw : starNameLen w with
    | none => rfl
    | some m => simp

theorem initLen_not_letter (c : Char) (w : List Char)
    (hc : asciiLetter c = false) : initLen (c :: w) = none := by
  cases w with
  | nil => rfl
  | cons d v => simp [initLen, hc]

theorem bodyLen_drop_ws (u : List Char) (j : Nat) (hj : j < munch wsCls u) :
    bodyLen (u.drop j) =
      match nameWordLen (u.drop (munch wsCls u)) with
      | some n => some (munch wsCls u - j + n)
      | none => none := by
  obtain ⟨c, t, hdrop, hws⟩ := munch_drop_ws wsCls u j hj
  unfold bodyLen
  rw [hdrop, initLen_not_letter c t (ws_not_letter c hws)]
  unfold starNameLen
  have hm : munch wsCls (c :: t) = munch wsCls u - j := by
    rw [← hdrop]
    exact munch_drop_munch wsCls u j (le_of_lt hj)
  rw [hm]
  have hdd : (c :: t).drop (munch wsCls u - j) = u.drop (munch wsCls u) := by
    rw [← hdrop, List.drop_drop]
    congr 1
    omega
  rw [hdd]

theorem nameWordLen_of_initLen (w : List Char) (n : Nat)
    (h : initLen w = some n) : nameWordLen w ≠ none := by
  match w with
  | [] => simp [initLen] at h
  | [l] => simp [initLen] at h
  | l :: d :: v =>
    by_cases hc : asciiLetter l = true ∧ d = '.'
    · have h1 : nameStartCls l = true := letter_nameStart l hc.1
      have h2 : 1 ≤ munch nameCls (d :: v) := by
        rw [hc.2]
        have : nameCls '.' = true := by decide
        simp [munch, this]
      simp [nameWordLen, h1, h2]
    · simp [initLen, hc] at h

theorem bodyLen_none_iff (w : List Char)
    (hw : ∀ c t, w = c :: t → wsCls c = false) :
    bodyLen w = none ↔ nameWordLen w = none := by
  have hm : munch wsCls w = 0 := by
    cases w with
    | nil => rfl
    | cons c t => exact munch_cons_false wsCls c t (hw c t rfl)
  have hsw : starNameLen w =
      match nameWordLen w with
      | some n => some (0 + n)
      | none => none := by
    unfold starNameLen
    rw [hm]
    simp
  constructor
  · intro h
    unfold bodyLen at h
    cases hin : initLen w with
    | some n =>
      rw [hin] at h
      exact absurd h (by simp)
    | none =>
      rw [hin, hsw] at h
      cases hnw : nameWordLen w with
      | none => rfl
      | some n =>
        rw [hnw] at h
        exact absurd h (by simp)
  · intro h
    unfold bodyLen
    cases hin : initLen w with
    | none =>
      rw [hsw, h]
    | some n => exact absurd h (nameWordLen_of_initLen w n hin)

theorem tryDown1_some (t : Nat → Option (Nat × Nat)) (n : Nat) (r : Nat × Nat)
    (hn : 1 ≤ n) (h : t n = some r) : tryDown1 t n = some r := by
  cases n with
  | zero => omega
  | succ m =>
    unfold tryDown1
    rw [h]
    rfl

theorem pPartyTail_eval (k : K) (f : List Char → Nat × Nat)
    (hk : ∀ p u, k p u = some (f u)) (prev : Option Char) (u : List Char) :
    pPartyTail k prev u =
      match tailLen u with
      | some t => some (f (u.drop t))
      | none => none := by
  unfold pPartyTail pPlusCls
  by_cases ha0 : munch wsCls u = 0
  · rw [ha0]
    have htl : tailLen u = none := by
      unfold tailLen
      rw [ha0]
      simp
    rw [htl]
    rfl
  · cases hb : bodyLen (u.drop (munch wsCls u)) with
    | some n =>
      have ht : (fun i => pOpt pInitial (pStarCls wsCls (pNameWord k))
          (prevAfter prev u i) (u.drop i)) (munch wsCls u)
          = some (f (u.drop (munch wsCls u + n))) := by
        simp only []
        rw [pBody_eval k f hk, hb]
        simp only []
        rw [List.drop_drop, Nat.add_comm]
      rw [tryDown1_some _ _ _ (by omega) ht]
      have htl : tailLen u = some (munch wsCls u + n) := by
        unfold tailLen
        rw [if_neg ha0, hb]
      rw [htl]
    | none =>
      have hnw : nameWordLen (u.drop (munch wsCls u)) = none :=
        (bodyLen_none_iff _ (fun c t hct =>
          munch_drop_head wsCls u c t hct)).mp hb
      have hall : ∀ j, 1 ≤ j → j ≤ munch wsCls u →
          (fun i => pOpt pInitial (pStarCls wsCls (pNameWord k))
            (prevAfter prev u i) (u.drop i)) j = none := by
        intro j h1 hj
        simp only []
        rw [pBody_eval k f hk]
        rcases Nat.lt_or_ge j (munch wsCls u) with hlt | hge
        · rw [bodyLen_drop_ws u j hlt, hnw]
        · have hje : j = munch wsCls u := by omega
          rw [hje, hb]
      rw [tryDown1_none _ _ hall]
      have htl : tailLen u = none := by
        unfold tailLen
        rw [if_neg ha0, hb]
      rw [htl]

theorem pLit_eval (k : K) (F : List Char → Option (Nat × Nat))
    (hk : ∀ p u, k p u = F u) :
    ∀ (lits : List Char) (prev : Option Char) (s : List Char),
      pLit lits k prev s =
        if (s.take lits.length).map lowerA = lits.map lowerA then
          F (s.drop lits.length)
        else none
  | [], prev, s => by
    simp [pLit, hk prev s]
  | l :: ls, prev, s => by
    cases s with
    | nil =>
      have h1 : pLit (l :: ls) k prev [] = none := rfl
      rw [h1]
      have h2 : ¬(([] : List Char).take (l :: ls).length).map lowerA
          = (l :: ls).map lowerA := by simp
      rw [if_neg h2]
    | cons c cs =>
      have h1 : pLit (l :: ls) k prev (c :: cs) =
          if (lowerA c == lowerA l) = true then pLit ls k (some c) cs
          else none := rfl
      rw [h1, pLit_eval k F hk ls (some c) cs]
      by_cases hcl : lowerA c = lowerA l
      · rw [if_pos (by simpa using hcl)]
        have hc2 : (((c :: cs).take (l :: ls).length).map lowerA
            = (l :: ls).map lowerA)
            ↔ ((cs.take ls.length).map lowerA = ls.map lowerA) := by
          simp [List.take_succ_cons, hcl]
        rw [if_congr hc2 rfl rfl]
        rfl
      · rw [if_neg (by simpa using hcl)]
        have hc2 : ¬(((c :: cs).take (l :: ls).length).map lowerA
            = (l :: ls).map lowerA) := by
          simp [List.take_succ_cons]
          intro h _
          exact hcl h
        rw [if_neg hc2]

/-! ## Bounds and boundary facts for the direct evaluation -/

theorem take_map_len (s : List Char) (n : Nat) (kw : List Char)
    (hl : kw.length = n) (h : (s.take n).map lowerA = kw) : n ≤ s.length := by
  have hlen := congrArg List.length h
  simp only [List.length_map, List.length_take, hl] at hlen
  omega

theorem kwLen_some_facts (s : List Char) (g1 : Nat) (h : kwLen s = some g1) :
    (g1 = 6 ∧ (s.take 6).map lowerA = kwKlager) ∨
    (g1 = 10 ∧ (s.take 10).map lowerA = kwVerweerder) := by
  unfold kwLen at h
  by_cases h6 : (s.take 6).map lowerA = kwKlager
  · rw [if_pos h6] at h
    cases h
    exact Or.inl ⟨rfl, h6⟩
  · rw [if_neg h6] at h
    by_cases h10 : (s.take 10).map lowerA = kwVerweerder
    · rw [if_pos h10] at h
      cases h
      exact Or.inr ⟨rfl, h10⟩
    · rw [if_neg h10] at h
      cases h

theorem kwLen_le (s : List Char) (g1 : Nat) (h : kwLen s = some g1) :
    6 ≤ g1 ∧ g1 ≤ s.length := by
  rcases kwLen_some_facts s g1 h with ⟨h1, h2⟩ | ⟨h1, h2⟩
  · subst h1
    exact ⟨Nat.le_refl 6, take_map_len s 6 kwKlager rfl h2⟩
  · subst h1
    exact ⟨by omega, take_map_len s 10 kwVerweerder rfl h2⟩

theorem nameWordLen_bounds (u : List Char) (n : Nat)
    (h : nameWordLen u = some n) : 1 ≤ n ∧ n ≤ u.length := by
  cases u with
  | nil => simp [nameWordLen] at h
  | cons c x =>
    have he : nameWordLen (c :: x) =
        if nameStartCls c = true ∧ 1 ≤ munch nameCls x then
          some (1 + munch nameCls x)
        else none := rfl
    rw [he] at h
    by_cases hc : nameStartCls c = true ∧ 1 ≤ munch nameCls x
    · rw [if_pos hc] at h
      cases h
      have := munch_le nameCls x
      refine ⟨by omega, ?_⟩
      simp only [List.length_cons]
      omega
    · rw [if_neg hc] at h
      cases h

theorem starNameLen_bounds (v : List Char) (n : Nat)
    (h : starNameLen v = some n) : 1 ≤ n ∧ n ≤ v.length := by
  unfold starNameLen at h
  cases hnw : nameWordLen (v.drop (munch wsCls v)) with
  | none => rw [hnw] at h; cases h
  | some m =>
    rw [hnw] at h
    cases h
    have h1 := nameWordLen_bounds _ m hnw
    have h2 := munch_le wsCls v
    simp only [List.length_drop] at h1
    constructor <;> omega

theorem initLen_bounds (w : List Char) (n : Nat)
    (h : initLen w = some n) : 1 ≤ n ∧ n ≤ w.length := by
  match w with
  | [] => simp [initLen] at h
  | [l] => simp [initLen] at h
  | l :: d :: v =>
    have he : initLen (l :: d :: v) =
        if asciiLetter l = true ∧ d = '.' then
          match starNameLen v with
          | some n => some (2 + n)
          | none => none
        else none := rfl
    rw [he] at h
    by_cases hc : asciiLetter l = true ∧ d = '.'
    · rw [if_pos hc] at h
      cases hsv : starNameLen v with
      | none => rw [hsv] at h; cases h
      | some m =>
        rw [hsv] at h
        cases h
        have := starNameLen_bounds v m hsv
        simp only [List.length_cons]
        constructor <;> omega
    · rw [if_neg hc] at h
      cases h

theorem bodyLen_bounds (w : List Char) (n : Nat)
    (h : bodyLen w = some n) : 1 ≤ n ∧ n ≤ w.length := by
  unfold bodyLen at h
  cases hin : initLen w with
  | some m =>
    rw [hin] at h
    cases h
    exact initLen_bounds w n hin
  | none =>
    rw [hin] at h
    exact starNameLen_bounds w n h

theorem tailLen_bounds (u : List Char) (t : Nat)
    (h : tailLen u = some t) : 1 ≤ t ∧ t ≤ u.length := by
  unfold tailLen at h
  by_cases ha : munch wsCls u = 0
  · rw [if_pos ha] at h
    cases h
  · rw [if_neg ha] at h
    cases hb : bodyLen (u.drop (munch wsCls u)) with
    | none => rw [hb] at h; cases h
    | some n =>
      rw [hb] at h
      cases h
      have h1 := bodyLen_bounds _ n hb
      have h2 := munch_le wsCls u
      simp only [List.length_drop] at h1
      constructor <;> omega

theorem nameWordLen_after (u : List Char) (n : Nat)
    (h : nameWordLen u = some n) :
    ∀ c t, u.drop n = c :: t → nameCls c = false := by
  cases u with
  | nil => simp [nameWordLen] at h
  | cons b x =>
    have he : nameWordLen (b :: x) =
        if nameStartCls b = true ∧ 1 ≤ munch nameCls x then
          some (1 + munch nameCls x)
        else none := rfl
    rw [he] at h
    by_cases hc : nameStartCls b = true ∧ 1 ≤ munch nameCls x
    · rw [if_pos hc] at h
      cases h
      intro c t hdrop
      have hd : (b :: x).drop (1 + munch nameCls x)
          = x.drop (munch nameCls x) := by
        rw [Nat.add_comm]
        rfl
      rw [hd] at hdrop
      exact munch_drop_head nameCls x c t hdrop
    · rw [if_neg hc] at h
      cases h

theorem starNameLen_after (v : List Char) (n : Nat)
    (h : starNameLen v = some n) :
    ∀ c t, v.drop n = c :: t → nameCls c = false := by
  unfold starNameLen at h
  cases hnw : nameWordLen (v.drop (munch wsCls v)) with
  | none => rw [hnw] at h; cases h
  | some m =>
    rw [hnw] at h
    cases h
    intro c t hdrop
    have hd : v.drop (munch wsCls v + m)
        = (v.drop (munch wsCls v)).drop m := by
      rw [List.drop_drop, Nat.add_comm]
    rw [hd] at hdrop
    exact nameWordLen_after _ m hnw c t hdrop

theorem initLen_after (w : List Char) (n : Nat)
    (h : initLen w = some n) :
    ∀ c t, w.drop n = c :: t → nameCls c = false := by
  match w with
  | [] => simp [initLen] at h
  | [l] => simp [initLen] at h
  | l :: d :: v =>
    have he : initLen (l :: d :: v) =
        if asciiLetter l = true ∧ d = '.' then
          match starNameLen v with
          | some n => some (2 + n)
          | none => none
        else none := rfl
    rw [he] at h
    by_cases hc : asciiLetter l = true ∧ d = '.'
    · rw [if_pos hc] at h
      cases hsv : starNameLen v with
      | none => rw [hsv] at h; cases h
      | some m =>
        rw [hsv] at h
        cases h
        intro c t hdrop
        have hd : (l :: d :: v).drop (2 + m) = v.drop m := by
          rw [Nat.add_comm]
          rfl
        rw [hd] at hdrop
        exact starNameLen_after v m hsv c t hdrop
    · rw [if_neg hc] at h
      cases h

theorem bodyLen_after (w : List Char) (n : Nat)
    (h : bodyLen w = some n) :
    ∀ c t, w.drop n = c :: t → nameCls c = false := by
  unfold bodyLen at h
  cases hin : initLen w with
  | some m =>
    rw [hin] at h
    cases h
    exact initLen_after w n hin
  | none =>
    rw [hin] at h
    exact starNameLen_after w n h

theorem tailLen_after (u : List Char) (t : Nat)
    (h : tailLen u = some t) :
    ∀ c r, u.drop t = c :: r → nameCls c = false := by
  unfold tailLen at h
  by_cases ha : munch wsCls u = 0
  · rw [if_pos ha] at h
    cases h
  · rw [if_neg ha] at h
    cases hb : bodyLen (u.drop (munch wsCls u)) with
    | none => rw [hb] at h; cases h
    | some n =>
      rw [hb] at h
      cases h
      intro c r hdrop
      have hd : u.drop (munch wsCls u + n)
          = (u.drop (munch wsCls u)).drop n := by
        rw [List.drop_drop, Nat.add_comm]
      rw [hd] at hdrop
      exact bodyLen_after _ n hb c r hdrop

theorem tailLen_head_ws (u : List Char) (t : Nat)
    (h : tailLen u = some t) :
    ∃ c r, u = c :: r ∧ wsCls c = true := by
  unfold tailLen at h
  by_cases ha : munch wsCls u = 0
  · rw [if_pos ha] at h
    cases h
  · cases u with
    | nil => simp [munch] at ha
    | cons c r =>
      refine ⟨c, r, rfl, ?_⟩
      cases hc : wsCls c
      · rw [munch_cons_false wsCls c r hc] at ha
        simp at ha
      · rfl

/-! ## The keyword group and the full-matcher equivalence -/

theorem klager_list : "klager".toList = kwKlager := by decide

theorem verweerder_list : "verweerder".toList = kwVerweerder := by decide

theorem klager_map : ("klager".toList).map lowerA = kwKlager := by decide

theorem verweerder_map : ("verweerder".toList).map lowerA = kwVerweerder := by
  decide

theorem klager_len : ("klager".toList).length = 6 := by decide

theorem verweerder_len : ("verweerder".toList).length = 10 := by decide

theorem fold_incompat (s : List Char)
    (h6 : (s.take 6).map lowerA = kwKlager) :
    ¬(s.take 10).map lowerA = kwVerweerder := by
  intro h10
  cases s with
  | nil => simp [kwKlager] at h6
  | cons c cs =>
    have e6 : lowerA c = 'k' := by
      have hh := congrArg (fun l => l[0]?) h6
      simpa [kwKlager, List.getElem?_take, List.getElem?_map] using hh
    have e10 : lowerA c = 'v' := by
      have hh := congrArg (fun l => l[0]?) h10
      simpa [kwVerweerder, List.getElem?_take, List.getElem?_map] using hh
    rw [e6] at e10
    exact absurd e10 (by decide)

theorem pPartyG1_eval (C : K) (G : List Char → Option (Nat × Nat))
    (hC : ∀ p u, C p u = G u) (prev : Option Char) (s : List Char) :
    pPartyG1 C prev s =
      match kwLen s with
      | some g1 => G (s.drop g1)
      | none => none := by
  unfold pPartyG1 pAlt
  simp only []
  rw [pLit_eval C G hC ("klager".toList) prev s,
    pLit_eval C G hC ("verweerder".toList) prev s]
  simp only [klager_len, verweerder_len, klager_map, verweerder_map]
  unfold kwLen
  by_cases h6 : (s.take 6).map lowerA = kwKlager
  · rw [if_pos h6, if_pos h6, if_neg (fold_incompat s h6)]
    show (G (s.drop 6) <|> none) = G (s.drop 6)
    cases G (s.drop 6) <;> rfl
  · rw [if_neg h6, if_neg h6]
    by_cases h10 : (s.take 10).map lowerA = kwVerweerder
    · rw [if_pos h10, if_pos h10]
      show (none <|> G (s.drop 10)) = G (s.drop 10)
      cases G (s.drop 10) <;> rfl
    · rw [if_neg h10, if_neg h10]
      rfl

theorem pWb_eval (k : K) (prev : Option Char) (s : List Char) :
    pWb k prev s = if wbOk prev s = true then k prev s else none := rfl

theorem partyMatch_eq_fn (prev : Option Char) (s : List Char) :
    partyMatch prev s = partyMatchFn prev s := by
  unfold partyMatch ruleMatch
  rw [pWb_eval]
  unfold partyMatchFn
  by_cases hwb : wbOk prev s = true
  · rw [if_pos hwb, if_pos hwb]
    have hC : ∀ (p : Option Char) (u : List Char),
        (fun prev1 s1 => pPartyTail
          (fun _ s2 => some (s.length - s1.length, s.length - s2.length))
          prev1 s1) p u
        = (fun u => match tailLen u with
            | some t =>
              some (s.length - u.length, s.length - ((u.drop t).length))
            | none => none) u := by
      intro p u
      simp only []
      exact pPartyTail_eval _
        (fun s2 => (s.length - u.length, s.length - s2.length))
        (fun _ _ => rfl) p u
    rw [pPartyG1_eval _ _ hC prev s]
    cases hkw : kwLen s with
    | none => rfl
    | some g1 =>
      simp only []
      have hg1 := kwLen_le s g1 hkw
      cases ht : tailLen (s.drop g1) with
      | none => rfl
      | some t =>
        simp only []
        have htb := tailLen_bounds _ t ht
        simp only [List.length_drop] at htb
        congr 1
        simp only [List.length_drop, Prod.mk.injEq]
        constructor <;> omega
  · rw [if_neg hwb, if_neg hwb]

/-! ## Characterization of a successful party match -/

theorem partyMatchFn_some_parts (prev : Option Char) (s : List Char)
    (g1 len : Nat) (h : partyMatchFn prev s = some (g1, len)) :
    wbOk prev s = true ∧ kwLen s = some g1 ∧
      ∃ t, tailLen (s.drop g1) = some t ∧ len = g1 + t := by
  unfold partyMatchFn at h
  by_cases hwb : wbOk prev s = true
  · rw [if_pos hwb] at h
    cases hkw : kwLen s with
    | none => rw [hkw] at h; cases h
    | some g =>
      rw [hkw] at h
      simp only [] at h
      cases ht : tailLen (s.drop g) with
      | none => rw [ht] at h; cases h
      | some t =>
        rw [ht] at h
        cases h
        exact ⟨hwb, rfl, t, ht, rfl⟩
  · rw [if_neg hwb] at h
    cases h

theorem partyMatchFn_bounds (prev : Option Char) (s : List Char)
    (g1 len : Nat) (h : partyMatchFn prev s = some (g1, len)) :
    6 ≤ g1 ∧ g1 < len ∧ len ≤ s.length := by
  obtain ⟨-, hkw, t, ht, hlen⟩ := partyMatchFn_some_parts prev s g1 len h
  have h1 := kwLen_le s g1 hkw
  have h2 := tailLen_bounds _ t ht
  simp only [List.length_drop] at h2
  omega

theorem partyMatchFn_after (prev : Option Char) (s : List Char)
    (g1 len : Nat) (h : partyMatchFn prev s = some (g1, len)) :
    ∀ c r, s.drop len = c :: r → nameCls c = false := by
  obtain ⟨-, hkw, t, ht, hlen⟩ := partyMatchFn_some_parts prev s g1 len h
  intro c r hdrop
  have hd : s.drop len = (s.drop g1).drop t := by
    rw [List.drop_drop, hlen, Nat.add_comm]
  rw [hd] at hdrop
  exact tailLen_after _ t ht c r hdrop

theorem kwLen_letters (s : List Char) (g1 : Nat) (h : kwLen s = some g1) :
    ∀ c ∈ s.take g1, asciiLetter c = true := by
  have hK : ∀ d ∈ kwKlager, asciiLetter d = true := by decide
  have hV : ∀ d ∈ kwVerweerder, asciiLetter d = true := by decide
  intro c hc
  rcases kwLen_some_facts s g1 h with ⟨h1, h2⟩ | ⟨h1, h2⟩ <;> subst h1
  · have : lowerA c ∈ kwKlager := by
      rw [← h2]
      exact List.mem_map_of_mem lowerA hc
    exact letter_of_lowerA c (hK (lowerA c) this)
  · have : lowerA c ∈ kwVerweerder := by
      rw [← h2]
      exact List.mem_map_of_mem lowerA hc
    exact letter_of_lowerA c (hV (lowerA c) this)

theorem kwLen_head_letter (c : Char) (t : List Char) (g1 : Nat)
    (h : kwLen (c :: t) = some g1) : asciiLetter c = true := by
  have h6 : 6 ≤ g1 := (kwLen_le _ g1 h).1
  refine kwLen_letters (c :: t) g1 h c ?_
  cases hg : g1 with
  | zero => omega
  | succ m => simp [List.take_succ_cons]

theorem kwLen_none_of_not_nameCls (c : Char) (t : List Char)
    (hc : nameCls c = false) : kwLen (c :: t) = none := by
  cases hk : kwLen (c :: t) with
  | none => rfl
  | some g1 =>
    have := nameStart_nameCls c
      (letter_nameStart c (kwLen_head_letter c t g1 hk))
    rw [this] at hc
    cases hc

theorem partyMatchFn_not_nameCls (prev : Option Char) (c : Char)
    (t : List Char) (hc : nameCls c = false) :
    partyMatchFn prev (c :: t) = none := by
  unfold partyMatchFn
  by_cases hwb : wbOk prev (c :: t) = true
  · rw [if_pos hwb, kwLen_none_of_not_nameCls c t hc]
  · rw [if_neg hwb]

/-! ## Congruence of match failure across the rewritten suffix -/

theorem take_append_le (w z : List Char) (n : Nat) (h : n ≤ w.length) :
    (w ++ z).take n = w.take n := by
  rw [List.take_append_eq_append_take]
  have : n - w.length = 0 := by omega
  rw [this]
  simp

theorem kwVerweerder_ws_impossible (w : List Char) (c : Char)
    (r : List Char) (h6 : 6 ≤ w.length) (h10 : w.length < 10)
    (hc : wsCls c = true) :
    ¬((w ++ c :: r).take 10).map lowerA = kwVerweerder := by
  intro h
  have htake : (w ++ c :: r).take 10 = w ++ (c :: r).take (10 - w.length) := by
    rw [List.take_append_eq_append_take]
    congr 1
    rw [List.take_of_length_le (by omega)]
  have hcons : (c :: r).take (10 - w.length)
      = c :: r.take (10 - w.length - 1) := by
    have he : 10 - w.length = (10 - w.length - 1) + 1 := by omega
    rw [he, List.take_succ_cons]
    simp
  rw [htake, hcons, List.map_append] at h
  have hel := congrArg (fun l => l[w.length]?) h
  simp only [] at hel
  rw [List.getElem?_append_right (by simp)] at hel
  simp only [List.length_map, Nat.sub_self, List.map_cons,
    List.getElem?_cons_zero] at hel
  have hlc : lowerA c = c := ws_lowerA c hc
  rw [hlc] at hel
  have hn6 : 6 ≤ w.length := h6
  have hn10 : w.length < 10 := h10
  set n := w.length with hn
  interval_cases n
  · rw [(by decide : kwVerweerder[6]? = some 'r')] at hel
    simp only [Option.some.injEq] at hel
    subst hel
    exact absurd hc (by decide)
  · rw [(by decide : kwVerweerder[7]? = some 'd')] at hel
    simp only [Option.some.injEq] at hel
    subst hel
    exact absurd hc (by decide)
  · rw [(by decide : kwVerweerder[8]? = some 'e')] at hel
    simp only [Option.some.injEq] at hel
    subst hel
    exact absurd hc (by decide)
  · rw [(by decide : kwVerweerder[9]? = some 'r')] at hel
    simp only [Option.some.injEq] at hel
    subst hel
    exact absurd hc (by decide)

theorem kwLen_congr (w : List Char) (c1 c2 : Char) (r1 r2 : List Char)
    (hw : 6 ≤ w.length) (h1 : wsCls c1 = true) (h2 : wsCls c2 = true) :
    kwLen (w ++ c1 :: r1) = kwLen (w ++ c2 :: r2) := by
  unfold kwLen
  have ht6 : ∀ (c : Char) (r : List Char),
      (w ++ c :: r).take 6 = w.take 6 := by
    intro c r
    exact take_append_le w (c :: r) 6 hw
  rw [ht6 c1 r1, ht6 c2 r2]
  rcases Nat.lt_or_ge w.length 10 with hlt | hge
  · have hv1 := kwVerweerder_ws_impossible w c1 r1 hw hlt h1
    have hv2 := kwVerweerder_ws_impossible w c2 r2 hw hlt h2
    rw [if_neg hv1, if_neg hv2]
  · have ht10 : ∀ (c : Char) (r : List Char),
        (w ++ c :: r).take 10 = w.take 10 := by
      intro c r
      exact take_append_le w (c :: r) 10 hge
    rw [ht10 c1 r1, ht10 c2 r2]

theorem nameWordLen_append_cons (W : List Char) (c : Char) (r : List Char)
    (hW : W ≠ []) (hc : nameCls c = false) :
    nameWordLen (W ++ c :: r) = nameWordLen W := by
  cases W with
  | nil => exact absurd rfl hW
  | cons h t =>
    have he1 : nameWordLen ((h :: t) ++ c :: r) =
        if nameStartCls h = true ∧ 1 ≤ munch nameCls (t ++ c :: r) then
          some (1 + munch nameCls (t ++ c :: r))
        else none := rfl
    have he2 : nameWordLen (h :: t) =
        if nameStartCls h = true ∧ 1 ≤ munch nameCls t then
          some (1 + munch nameCls t)
        else none := rfl
    rw [he1, he2, munch_append_cons nameCls c r hc t]

theorem tailLen_none_congr (w0 : List Char) (x c1 c2 : Char)
    (r1 r2 : List Char) (hx : wsCls x = false) (h1 : wsCls c1 = true)
    (h2 : wsCls c2 = true)
    (h : tailLen (w0 ++ x :: c1 :: r1) = none) :
    tailLen (w0 ++ x :: c2 :: r2) = none := by
  have hm : ∀ (c : Char) (r : List Char),
      munch wsCls (w0 ++ x :: c :: r) = munch wsCls w0 := by
    intro c r
    exact munch_append_cons wsCls x (c :: r) hx w0
  by_cases ha : munch wsCls w0 = 0
  · unfold tailLen
    rw [hm c2 r2, if_pos ha]
  · have hle : munch wsCls w0 ≤ w0.length := munch_le wsCls w0
    have hdrop : ∀ (c : Char) (r : List Char),
        (w0 ++ x :: c :: r).drop (munch wsCls w0)
          = (w0.drop (munch wsCls w0)) ++ x :: c :: r := by
      intro c r
      rw [List.drop_append_eq_append_drop]
      have : munch wsCls w0 - w0.length = 0 := by omega
      rw [this]
      simp
    have hW : (w0.drop (munch wsCls w0)) ++ [x] ≠ [] := by simp
    have hhead : ∀ (cc : Char) (tt : List Char),
        (w0.drop (munch wsCls w0)) ++ [x] = cc :: tt → wsCls cc = false := by
      intro cc tt hct
      cases hd : w0.drop (munch wsCls w0) with
      | nil =>
        rw [hd] at hct
        simp at hct
        rw [← hct.1]
        exact hx
      | cons d ds =>
        have hdws : wsCls d = false := munch_drop_head wsCls w0 d ds hd
        rw [hd] at hct
        simp at hct
        rw [← hct.1]
        exact hdws
    -- from h get nameWordLen none on the shared region
    unfold tailLen at h
    rw [hm c1 r1, if_neg ha, hdrop c1 r1] at h
    have hb1 : bodyLen ((w0.drop (munch wsCls w0)) ++ x :: c1 :: r1)
        = none := by
      cases hbb : bodyLen ((w0.drop (munch wsCls w0)) ++ x :: c1 :: r1) with
      | none => rfl
      | some n => rw [hbb] at h; cases h
    have hassoc1 : (w0.drop (munch wsCls w0)) ++ x :: c1 :: r1
        = ((w0.drop (munch wsCls w0)) ++ [x]) ++ c1 :: r1 := by simp
    have hassoc2 : (w0.drop (munch wsCls w0)) ++ x :: c2 :: r2
        = ((w0.drop (munch wsCls w0)) ++ [x]) ++ c2 :: r2 := by simp
    have hhead1 : ∀ (cc : Char) (tt : List Char),
        (w0.drop (munch wsCls w0)) ++ x :: c1 :: r1 = cc :: tt →
          wsCls cc = false := by
      intro cc tt hct
      rw [hassoc1] at hct
      cases hd : (w0.drop (munch wsCls w0)) ++ [x] with
      | nil => exact absurd hd hW
      | cons d ds =>
        rw [hd] at hct
        simp at hct
        rw [← hct.1]
        exact hhead d ds hd
    have hhead2 : ∀ (cc : Char) (tt : List Char),
        (w0.drop (munch wsCls w0)) ++ x :: c2 :: r2 = cc :: tt →
          wsCls cc = false := by
      intro cc tt hct
      rw [hassoc2] at hct
      cases hd : (w0.drop (munch wsCls w0)) ++ [x] with
      | nil => exact absurd hd hW
      | cons d ds =>
        rw [hd] at hct
        simp at hct
        rw [← hct.1]
        exact hhead d ds hd
    have hnw1 : nameWordLen ((w0.drop (munch wsCls w0)) ++ x :: c1 :: r1)
        = none := (bodyLen_none_iff _ hhead1).mp hb1
    have hnwW : nameWordLen ((w0.drop (munch wsCls w0)) ++ [x]) = none := by
      rw [hassoc1, nameWordLen_append_cons _ c1 r1 hW
        (ws_not_nameCls c1 h1)] at hnw1
      exact hnw1
    have hnw2 : nameWordLen ((w0.drop (munch wsCls w0)) ++ x :: c2 :: r2)
        = none := by
      rw [hassoc2, nameWordLen_append_cons _ c2 r2 hW
        (ws_not_nameCls c2 h2)]
      exact hnwW
    have hb2 : bodyLen ((w0.drop (munch wsCls w0)) ++ x :: c2 :: r2)
        = none := (bodyLen_none_iff _ hhead2).mpr hnw2
    unfold tailLen
    rw [hm c2 r2, if_neg ha, hdrop c2 r2, hb2]

/-! ## A replaced block matches exactly itself -/

theorem tailLen_block (out2 : List Char)
    (hout : ∀ c r, out2 = c :: r → nameCls c = false) :
    tailLen (' ' :: 'N' :: 'A' :: 'A' :: 'M' :: out2) = some 5 := by
  have h0 : munch nameCls out2 = 0 := by
    cases out2 with
    | nil => rfl
    | cons c r => exact munch_cons_false nameCls c r (hout c r rfl)
  have hmn : munch nameCls ('A' :: 'A' :: 'M' :: out2) = 3 := by
    simp [munch, h0, (by decide : nameCls 'A' = true),
      (by decide : nameCls 'M' = true)]
  have hmw : munch wsCls ('N' :: 'A' :: 'A' :: 'M' :: out2) = 0 := by
    simp [munch, (by decide : wsCls 'N' = false)]
  have hm : munch wsCls (' ' :: 'N' :: 'A' :: 'A' :: 'M' :: out2) = 1 := by
    simp [munch, hmw, (by decide : wsCls ' ' = true),
      (by decide : wsCls 'N' = false)]
  have hnw : nameWordLen ('N' :: 'A' :: 'A' :: 'M' :: out2) = some 4 := by
    have he : nameWordLen ('N' :: 'A' :: 'A' :: 'M' :: out2) =
        if nameStartCls 'N' = true ∧
            1 ≤ munch nameCls ('A' :: 'A' :: 'M' :: out2) then
          some (1 + munch nameCls ('A' :: 'A' :: 'M' :: out2))
        else none := rfl
    rw [he, hmn]
    simp [(by decide : nameStartCls 'N' = true)]
  have hsn : starNameLen ('N' :: 'A' :: 'A' :: 'M' :: out2) = some 4 := by
    unfold starNameLen
    rw [hmw]
    simp only [List.drop_zero, hnw]
  have hin : initLen ('N' :: 'A' :: 'A' :: 'M' :: out2) = none := by
    have he : initLen ('N' :: 'A' :: 'A' :: 'M' :: out2) =
        if asciiLetter 'N' = true ∧ 'A' = '.' then
          match starNameLen ('A' :: 'M' :: out2) with
          | some n => some (2 + n)
          | none => none
        else none := rfl
    rw [he]
    simp
  have hb : bodyLen ('N' :: 'A' :: 'A' :: 'M' :: out2) = some 4 := by
    unfold bodyLen
    rw [hin, hsn]
  unfold tailLen
  rw [hm]
  simp only [List.drop_succ_cons, List.drop_zero, hb]
  rfl

theorem wbOk_cons (prev : Option Char) (c : Char) (t1 t2 : List Char) :
    wbOk prev (c :: t1) = wbOk prev (c :: t2) := rfl

theorem partyMatchFn_block (prev : Option Char) (s : List Char)
    (g1 len : Nat) (out2 : List Char)
    (h : partyMatchFn prev s = some (g1, len))
    (hout : ∀ c r, out2 = c :: r → nameCls c = false) :
    partyMatchFn prev (s.take g1 ++ ' ' :: 'N' :: 'A' :: 'A' :: 'M' :: out2)
      = some (g1, g1 + 5) := by
  obtain ⟨hwb, hkw, t, ht, hlen⟩ := partyMatchFn_some_parts prev s g1 len h
  have hg := kwLen_le s g1 hkw
  have hlg : (s.take g1).length = g1 := by
    rw [List.length_take]
    omega
  have hwb2 : wbOk prev
      (s.take g1 ++ ' ' :: 'N' :: 'A' :: 'A' :: 'M' :: out2) = true := by
    cases s with
    | nil => simp at hlg; omega
    | cons c cs =>
      have htk : (c :: cs).take g1 = c :: cs.take (g1 - 1) := by
        have he : g1 = (g1 - 1) + 1 := by omega
        rw [he, List.take_succ_cons]
        simp
      rw [htk]
      rw [show (c :: cs.take (g1 - 1)) ++
          ' ' :: 'N' :: 'A' :: 'A' :: 'M' :: out2
          = c :: (cs.take (g1 - 1) ++
            ' ' :: 'N' :: 'A' :: 'A' :: 'M' :: out2) from rfl]
      rw [wbOk_cons prev c _ cs]
      exact hwb
  have hkw2 : kwLen
      (s.take g1 ++ ' ' :: 'N' :: 'A' :: 'A' :: 'M' :: out2) = some g1 := by
    rcases kwLen_some_facts s g1 hkw with ⟨h1, h2⟩ | ⟨h1, h2⟩ <;> subst h1
    · have ht6 : (s.take 6 ++ ' ' :: 'N' :: 'A' :: 'A' :: 'M' :: out2).take 6
          = s.take 6 := by
        rw [take_append_le _ _ 6 (by omega), List.take_take]
        norm_num
      unfold kwLen
      rw [ht6, if_pos h2]
    · have h6f : ¬(s.take 6).map lowerA = kwKlager := by
        intro hf
        unfold kwLen at hkw
        rw [if_pos hf] at hkw
        simp at hkw
      have ht6 : (s.take 10 ++ ' ' :: 'N' :: 'A' :: 'A' :: 'M' :: out2).take 6
          = s.take 6 := by
        rw [take_append_le _ _ 6 (by omega), List.take_take]
        norm_num
      have ht10 : (s.take 10 ++
          ' ' :: 'N' :: 'A' :: 'A' :: 'M' :: out2).take 10 = s.take 10 := by
        rw [take_append_le _ _ 10 (by omega), List.take_take]
        norm_num
      unfold kwLen
      rw [ht6, ht10, if_neg h6f, if_pos h2]
  have hdrop : (s.take g1 ++ ' ' :: 'N' :: 'A' :: 'A' :: 'M' :: out2).drop g1
      = ' ' :: 'N' :: 'A' :: 'A' :: 'M' :: out2 := by
    rw [List.drop_append_eq_append_drop]
    rw [List.drop_of_length_le (by omega), hlg]
    simp
  unfold partyMatchFn
  rw [if_pos hwb2, hkw2]
  simp only []
  rw [hdrop, tailLen_block out2 hout]

/-! ## Structure of the substitution scan -/

theorem sub_scan_congr (m1 m2 : Option Char → List Char → Option (Nat × Nat))
    (h : ∀ p s, m1 p s = m2 p s) :
    ∀ (fuel : Nat) (prev : Option Char) (s : List Char),
      sub_scan m1 fuel prev s = sub_scan m2 fuel prev s
  | 0, prev, s => rfl
  | fuel + 1, prev, [] => rfl
  | fuel + 1, prev, c :: cs => by
    unfold sub_scan
    rw [h prev (c :: cs)]
    cases m2 prev (c :: cs) with
    | none => rw [sub_scan_congr m1 m2 h fuel (some c) cs]
    | some r =>
      cases r with
      | mk g1 len =>
        simp only []
        rw [sub_scan_congr m1 m2 h fuel (prevAfter prev (c :: cs) len)
          ((c :: cs).drop len)]

theorem sub_scan_nil (m : Option Char → List Char → Option (Nat × Nat))
    (fuel : Nat) (prev : Option Char) : sub_scan m fuel prev [] = [] := by
  cases fuel <;> rfl

theorem sub_scan_head (fuel : Nat) (prev : Option Char) (u : List Char) :
    (sub_scan partyMatchFn fuel prev u).head? = u.head? := by
  cases fuel with
  | zero => rfl
  | succ f =>
    cases u with
    | nil => rfl
    | cons c cs =>
      unfold sub_scan
      cases hm : partyMatchFn prev (c :: cs) with
      | none => rfl
      | some r =>
        cases r with
        | mk g1 len =>
          have hg1 := (partyMatchFn_bounds prev (c :: cs) g1 len hm).1
          have htk : (c :: cs).take g1 = c :: cs.take (g1 - 1) := by
            have he : g1 = (g1 - 1) + 1 := by omega
            rw [he, List.take_succ_cons]
            simp
          simp only [htk]
          rfl

theorem spaceNAAM_toList : " NAAM".toList = [' ', 'N', 'A', 'A', 'M'] := by
  decide

theorem sub_scan_cons (m : Option Char → List Char → Option (Nat × Nat))
    (fuel : Nat) (prev : Option Char) (c : Char) (cs : List Char) :
    sub_scan m (fuel + 1) prev (c :: cs) =
      match m prev (c :: cs) with
      | some (g1, len) => (c :: cs).take g1 ++ " NAAM".toList ++
          sub_scan m fuel (prevAfter prev (c :: cs) len) ((c :: cs).drop len)
      | none => c :: sub_scan m fuel (some c) cs := rfl

theorem firstMatch_none_scan :
    ∀ (u : List Char) (prev : Option Char) (fuel : Nat),
      firstMatch prev u = none → sub_scan partyMatchFn fuel prev u = u
  | [], prev, fuel, _ => sub_scan_nil partyMatchFn fuel prev
  | c :: cs, prev, fuel, h => by
    unfold firstMatch at h
    cases hm : partyMatchFn prev (c :: cs) with
    | some r =>
      rw [hm] at h
      cases r with
      | mk g l => simp at h
    | none =>
      rw [hm] at h
      simp only [] at h
      have hrec : firstMatch (some c) cs = none := by
        cases hf : firstMatch (some c) cs with
        | none => rfl
        | some x =>
          rw [hf] at h
          simp at h
      cases fuel with
      | zero => rfl
      | succ f =>
        unfold sub_scan
        rw [hm, firstMatch_none_scan cs (some c) f hrec]

theorem firstMatch_parts :
    ∀ (u : List Char) (prev : Option Char) (P g1 len : Nat),
      firstMatch prev u = some (P, g1, len) →
      partyMatchFn (prevAt prev u P) (u.drop P) = some (g1, len)
  | [], prev, P, g1, len, h => by simp [firstMatch] at h
  | c :: cs, prev, P, g1, len, h => by
    unfold firstMatch at h
    cases hm : partyMatchFn prev (c :: cs) with
    | some r =>
      rw [hm] at h
      cases r with
      | mk g l =>
        simp only [Option.some.injEq, Prod.mk.injEq] at h
        obtain ⟨hP, hg, hl⟩ := h
        subst hP
        subst hg
        subst hl
        simpa [prevAt] using hm
    | none =>
      rw [hm] at h
      simp only [] at h
      cases hf : firstMatch (some c) cs with
      | none => rw [hf] at h; simp at h
      | some x =>
        rw [hf] at h
        obtain ⟨x1, x2, x3⟩ := x
        simp only [Option.map_some', Option.some.injEq, Prod.mk.injEq] at h
        obtain ⟨hP, hg, hl⟩ := h
        subst hg
        subst hl
        have ih := firstMatch_parts cs (some c) x1 x2 x3 hf
        have hpa : prevAt prev (c :: cs) P = prevAt (some c) cs x1 := by
          subst hP
          unfold prevAt
          cases x1 with
          | zero => simp
          | succ j => simp
        have hdr : (c :: cs).drop P = cs.drop x1 := by
          subst hP
          rfl
        rw [hpa, hdr]
        exact ih

theorem firstMatch_scan_short :
    ∀ (u : List Char) (prev : Option Char) (P g1 len fuel : Nat),
      firstMatch prev u = some (P, g1, len) → fuel ≤ P →
      sub_scan partyMatchFn fuel prev u = u
  | [], prev, P, g1, len, fuel, h, _ => by simp [firstMatch] at h
  | c :: cs, prev, P, g1, len, fuel, h, hfu => by
    unfold firstMatch at h
    cases hm : partyMatchFn prev (c :: cs) with
    | some r =>
      rw [hm] at h
      cases r with
      | mk g l =>
        simp only [Option.some.injEq, Prod.mk.injEq] at h
        obtain ⟨hP, -, -⟩ := h
        have : fuel = 0 := by omega
        subst this
        rfl
    | none =>
      rw [hm] at h
      simp only [] at h
      cases hf : firstMatch (some c) cs with
      | none => rw [hf] at h; simp at h
      | some x =>
        rw [hf] at h
        obtain ⟨x1, x2, x3⟩ := x
        simp only [Option.map_some', Option.some.injEq, Prod.mk.injEq] at h
        obtain ⟨hP, -, -⟩ := h
        cases fuel with
        | zero => rfl
        | succ f =>
          unfold sub_scan
          rw [hm,
            firstMatch_scan_short cs (some c) x1 x2 x3 f hf (by omega)]

theorem firstMatch_scan :
    ∀ (u : List Char) (prev : Option Char) (P g1 len fuel : Nat),
      firstMatch prev u = some (P, g1, len) → P + 1 ≤ fuel →
      ∃ p2, sub_scan partyMatchFn fuel prev u =
        u.take (P + g1) ++ ' ' :: 'N' :: 'A' :: 'A' :: 'M' ::
          sub_scan partyMatchFn (fuel - (P + 1)) p2 ((u.drop P).drop len)
  | [], prev, P, g1, len, fuel, h, _ => by simp [firstMatch] at h
  | c :: cs, prev, P, g1, len, fuel, h, hfu => by
    unfold firstMatch at h
    cases hm : partyMatchFn prev (c :: cs) with
    | some r =>
      rw [hm] at h
      cases r with
      | mk g l =>
        simp only [Option.some.injEq, Prod.mk.injEq] at h
        obtain ⟨hP, hg, hl⟩ := h
        subst hg
        subst hl
        cases fuel with
        | zero => omega
        | succ f =>
          refine ⟨prevAfter prev (c :: cs) l, ?_⟩
          rw [sub_scan_cons, hm]
          simp only []
          subst hP
          rw [spaceNAAM_toList]
          simp
    | none =>
      rw [hm] at h
      simp only [] at h
      cases hf : firstMatch (some c) cs with
      | none => rw [hf] at h; simp at h
      | some x =>
        rw [hf] at h
        obtain ⟨x1, x2, x3⟩ := x
        simp only [Option.map_some', Option.some.injEq, Prod.mk.injEq] at h
        obtain ⟨hP, hg, hl⟩ := h
        subst hg
        subst hl
        cases fuel with
        | zero => omega
        | succ f =>
          obtain ⟨p2, hp2⟩ :=
            firstMatch_scan cs (some c) x1 x2 x3 f hf (by omega)
          refine ⟨p2, ?_⟩
          rw [sub_scan_cons, hm]
          simp only []
          rw [hp2]
          have htk : (c :: cs).take (P + x2) = c :: cs.take (x1 + x2) := by
            have he : P + x2 = (x1 + x2) + 1 := by omega
            rw [he, List.take_succ_cons]
          have hdr : (c :: cs).drop P = cs.drop x1 := by
            have he : P = x1 + 1 := by omega
            rw [he]
            rfl
          have hfe : f - (x1 + 1) = f + 1 - (P + 1) := by omega
          rw [htk, hdr, hfe]
          simp

theorem partyMatchFn_kwLen_none (prev : Option Char) (s : List Char)
    (h : kwLen s = none) : partyMatchFn prev s = none := by
  unfold partyMatchFn
  by_cases hwb : wbOk prev s = true
  · rw [if_pos hwb, h]
  · rw [if_neg hwb]

theorem partyMatchFn_tail_none (prev : Option Char) (s : List Char) (g1 : Nat)
    (hkw : kwLen s = some g1) (ht : tailLen (s.drop g1) = none) :
    partyMatchFn prev s = none := by
  unfold partyMatchFn
  by_cases hwb : wbOk prev s = true
  · rw [if_pos hwb, hkw]
    simp only []
    rw [ht]
  · rw [if_neg hwb]

theorem partyMatchFn_none_tail (prev : Option Char) (s : List Char) (g1 : Nat)
    (h : partyMatchFn prev s = none) (hwb : wbOk prev s = true)
    (hkw : kwLen s = some g1) : tailLen (s.drop g1) = none := by
  unfold partyMatchFn at h
  rw [if_pos hwb, hkw] at h
  simp only [] at h
  cases ht : tailLen (s.drop g1) with
  | none => rfl
  | some t => rw [ht] at h; cases h

theorem wbOk_append_head (prev : Option Char) (w : List Char)
    (c1 c2 : Char) (r1 r2 : List Char) (hw : w ≠ []) :
    wbOk prev (w ++ c1 :: r1) = wbOk prev (w ++ c2 :: r2) := by
  cases w with
  | nil => exact absurd rfl hw
  | cons a as => rfl

theorem partyMatchFn_wb_false (prev : Option Char) (s : List Char)
    (h : wbOk prev s = false) : partyMatchFn prev s = none := by
  unfold partyMatchFn
  rw [h]
  simp

theorem scan_head_none (fuel : Nat) (prev : Option Char) (u : List Char)
    (h : partyMatchFn prev u = none) :
    partyMatchFn prev (sub_scan partyMatchFn fuel prev u) = none := by
  cases hfm : firstMatch prev u with
  | none =>
    rw [firstMatch_none_scan u prev fuel hfm]
    exact h
  | some x =>
    obtain ⟨P, g1m, len⟩ := x
    rcases Nat.lt_or_ge fuel (P + 1) with hflt | hfge
    · rw [firstMatch_scan_short u prev P g1m len fuel hfm (by omega)]
      exact h
    · obtain ⟨p2, hscan⟩ := firstMatch_scan u prev P g1m len fuel hfm hfge
      rw [hscan]
      have hparts := firstMatch_parts u prev P g1m len hfm
      have hP1 : 1 ≤ P := by
        cases hp0 : P with
        | zero =>
          subst hp0
          have : prevAt prev u 0 = prev := if_pos rfl
          rw [this] at hparts
          rw [List.drop_zero] at hparts
          rw [h] at hparts
          cases hparts
        | succ m => omega
      obtain ⟨hwbP, hkwP, tP, htP, hlenP⟩ :=
        partyMatchFn_some_parts _ _ _ _ hparts
      have hg1m := kwLen_le _ _ hkwP
      have hdd : (u.drop P).drop g1m = u.drop (P + g1m) := by
        rw [List.drop_drop, Nat.add_comm]
      obtain ⟨c1, r1, hc1, hwsc1⟩ := tailLen_head_ws _ _ htP
      rw [hdd] at hc1
      have hlenu : P + g1m ≤ u.length := by
        have h2 := hg1m.2
        simp only [List.length_drop] at h2
        have h3 : u.drop (P + g1m) ≠ [] := by rw [hc1]; simp
        have h4 : u.length - (P + g1m) ≠ 0 → P + g1m ≤ u.length := by omega
        rcases Nat.lt_or_ge (P + g1m) u.length with hx | hx
        · omega
        · exfalso
          apply h3
          rw [List.drop_eq_nil_iff]
          omega
      have hwlen : (u.take (P + g1m)).length = P + g1m := by
        rw [List.length_take]
        omega
      have husplit : u = u.take (P + g1m) ++ c1 :: r1 := by
        conv_lhs => rw [← List.take_append_drop (P + g1m) u]
        rw [hc1]
      have hwne : u.take (P + g1m) ≠ [] := by
        intro hcon
        rw [hcon] at hwlen
        simp at hwlen
        omega
      -- the scanned text after position P + g1m
      have houtsplit : sub_scan partyMatchFn fuel prev u
          = u.take (P + g1m) ++ ' ' ::
            ('N' :: 'A' :: 'A' :: 'M' ::
              sub_scan partyMatchFn (fuel - (P + 1)) p2
                ((u.drop P).drop len)) := by
        rw [hscan]
      have hwbeq : wbOk prev (u.take (P + g1m) ++ ' ' ::
          ('N' :: 'A' :: 'A' :: 'M' ::
            sub_scan partyMatchFn (fuel - (P + 1)) p2
              ((u.drop P).drop len))) = wbOk prev u := by
        conv_rhs => rw [husplit]
        exact wbOk_append_head prev _ ' ' c1 _ r1 hwne
      by_cases hwbu : wbOk prev u = true
      · cases hkwu : kwLen u with
        | none =>
          apply partyMatchFn_kwLen_none
          have : kwLen (u.take (P + g1m) ++ c1 :: r1)
              = kwLen (u.take (P + g1m) ++ ' ' ::
                ('N' :: 'A' :: 'A' :: 'M' ::
                  sub_scan partyMatchFn (fuel - (P + 1)) p2
                    ((u.drop P).drop len))) := by
            apply kwLen_congr _ _ _ _ _ (by omega) hwsc1 (by decide)
          rw [← this, ← husplit, hkwu]
        | some g1h =>
          have htailu := partyMatchFn_none_tail prev u g1h h hwbu hkwu
          have hg1h := kwLen_le _ _ hkwu
          -- the first match begins after the keyword at the head
          have hPg : g1h + 1 ≤ P := by
            by_contra hcon
            have hPle : P ≤ g1h := by omega
            have hidx : P - 1 < u.length := by omega
            have hch : u[P - 1]? = some (u[P - 1]) :=
              List.getElem?_eq_getElem hidx
            have hmem : u[P - 1] ∈ u.take g1h := by
              have h5 : (u.take g1h)[P - 1]? = u[P - 1]? :=
                List.getElem?_take_of_lt (by omega)
              rw [hch] at h5
              exact List.getElem?_mem h5
            have hword : isWordChar (u[P - 1]) = true :=
              letter_word _ (kwLen_letters u g1h hkwu _ hmem)
            have hpa : prevAt prev u P = some (u[P - 1]) := by
              unfold prevAt
              rw [if_neg (by omega), hch]
            rw [hpa] at hwbP
            cases hdP : u.drop P with
            | nil =>
              rw [hdP] at hkwP
              have := (kwLen_le _ _ hkwP).2
              simp at this
              omega
            | cons cP tP2 =>
              rw [hdP] at hkwP hwbP
              have hcPw : isWordChar cP = true :=
                letter_word _ (kwLen_head_letter cP tP2 g1m hkwP)
              simp [wbOk, hword, hcPw] at hwbP
          -- pieces of the shared region
          have htakeadd : u.take (P + g1m)
              = u.take P ++ (u.drop P).take g1m := List.take_add u P g1m
          have hkwplen : ((u.drop P).take g1m).length = g1m := by
            rw [List.length_take]
            simp only [List.length_drop]
            omega
          have hkwpne : (u.drop P).take g1m ≠ [] := by
            intro hcon
            rw [hcon] at hkwplen
            simp at hkwplen
            omega
          have hx_mem : ((u.drop P).take g1m).getLast hkwpne
              ∈ (u.drop P).take g1m := List.getLast_mem hkwpne
          have hx_letter : asciiLetter
              (((u.drop P).take g1m).getLast hkwpne) = true :=
            kwLen_letters _ _ hkwP _ hx_mem
          have hx_ws : wsCls (((u.drop P).take g1m).getLast hkwpne)
              = false := letter_not_ws _ hx_letter
          have hkwsplit : (u.drop P).take g1m
              = ((u.drop P).take g1m).dropLast ++
                [((u.drop P).take g1m).getLast hkwpne] :=
            (List.dropLast_append_getLast hkwpne).symm
          have hPlen : (u.take P).length = P := by
            rw [List.length_take]
            omega
          have hdropw : ∀ z : List Char,
              (u.take (P + g1m) ++ z).drop g1h
                = ((u.take P).drop g1h ++ (u.drop P).take g1m) ++ z := by
            intro z
            rw [List.drop_append_eq_append_drop]
            rw [show g1h - (u.take (P + g1m)).length = 0 by omega]
            rw [List.drop_zero, htakeadd]
            rw [List.drop_append_eq_append_drop]
            rw [show g1h - (u.take P).length = 0 by omega]
            rw [List.drop_zero]
          -- rewrite both tails in the w0 ++ x :: c :: r shape
          have hshape : ∀ (c : Char) (r : List Char),
              ((u.take P).drop g1h ++ (u.drop P).take g1m) ++ c :: r
                = ((u.take P).drop g1h ++
                    ((u.drop P).take g1m).dropLast) ++
                  (((u.drop P).take g1m).getLast hkwpne) :: c :: r := by
            intro c r
            conv_lhs => rw [hkwsplit]
            simp [List.append_assoc]
          have htail1 : tailLen (((u.take P).drop g1h ++
              ((u.drop P).take g1m).dropLast) ++
                (((u.drop P).take g1m).getLast hkwpne) :: c1 :: r1)
              = none := by
            rw [← hshape c1 r1, ← hdropw (c1 :: r1), ← husplit]
            exact htailu
          have htail2 := tailLen_none_congr _ _ c1 ' ' r1
            ('N' :: 'A' :: 'A' :: 'M' ::
              sub_scan partyMatchFn (fuel - (P + 1)) p2
                ((u.drop P).drop len))
            hx_ws hwsc1 (by decide) htail1
          apply partyMatchFn_tail_none _ _ g1h
          · have hckw : kwLen (u.take (P + g1m) ++ c1 :: r1)
                = kwLen (u.take (P + g1m) ++ ' ' ::
                  ('N' :: 'A' :: 'A' :: 'M' ::
                    sub_scan partyMatchFn (fuel - (P + 1)) p2
                      ((u.drop P).drop len))) := by
              apply kwLen_congr _ _ _ _ _ (by omega) hwsc1 (by decide)
            rw [← hckw, ← husplit]
            exact hkwu
          · rw [hdropw, hshape ' ' _]
            exact htail2
      · apply partyMatchFn_wb_false
        rw [hwbeq]
        simpa using hwbu

theorem scan_idem :
    ∀ (fuel1 : Nat) (u : List Char) (prev1 prev2 : Option Char)
      (fuel2 : Nat),
      u.length + 1 ≤ fuel1 →
      (sub_scan partyMatchFn fuel1 prev1 u).length + 1 ≤ fuel2 →
      (prev1 = prev2 ∨ ∀ c t, u = c :: t → nameCls c = false) →
      sub_scan partyMatchFn fuel2 prev2
          (sub_scan partyMatchFn fuel1 prev1 u)
        = sub_scan partyMatchFn fuel1 prev1 u
  | 0, u, _, _, _, hf1, _, _ => by
    simp at hf1
  | f + 1, [], prev1, prev2, fuel2, _, _, _ => by
    rw [sub_scan_nil, sub_scan_nil]
  | f + 1, c :: cs, prev1, prev2, fuel2, hf1, hf2, hcompat => by
    cases hm : partyMatchFn prev1 (c :: cs) with
    | none =>
      rw [sub_scan_cons, hm] at hf2 ⊢
      simp only [] at hf2 ⊢
      have hnone2 : partyMatchFn prev2
          (c :: sub_scan partyMatchFn f (some c) cs) = none := by
        rcases hcompat with he | hnc
        · subst he
          have hsh := scan_head_none (f + 1) prev1 (c :: cs) hm
          rw [sub_scan_cons, hm] at hsh
          simp only [] at hsh
          exact hsh
        · exact partyMatchFn_not_nameCls prev2 c _ (hnc c cs rfl)
      obtain ⟨fz, hfz⟩ : ∃ fz, fuel2 = fz + 1 := ⟨fuel2 - 1, by omega⟩
      subst hfz
      rw [sub_scan_cons, hnone2]
      simp only []
      congr 1
      apply scan_idem f cs (some c) (some c) fz ?_ ?_ (Or.inl rfl)
      · simp only [List.length_cons] at hf1
        omega
      · simp only [List.length_cons] at hf2
        omega
    | some r =>
      obtain ⟨g1, len⟩ := r
      have hbounds := partyMatchFn_bounds prev1 (c :: cs) g1 len hm
      have hpe : prev1 = prev2 := by
        rcases hcompat with he | hnc
        · exact he
        · exfalso
          rw [partyMatchFn_not_nameCls prev1 c cs (hnc c cs rfl)] at hm
          cases hm
      subst hpe
      rw [sub_scan_cons, hm] at hf2 ⊢
      simp only [] at hf2 ⊢
      simp only [spaceNAAM_toList, List.cons_append, List.nil_append]
        at hf2 ⊢
      have hafter := partyMatchFn_after prev1 (c :: cs) g1 len hm
      have hout2head : ∀ cc rr,
          sub_scan partyMatchFn f (prevAfter prev1 (c :: cs) len)
            ((c :: cs).drop len) = cc :: rr → nameCls cc = false := by
        intro cc rr hccrr
        have hh := sub_scan_head f (prevAfter prev1 (c :: cs) len)
          ((c :: cs).drop len)
        rw [hccrr] at hh
        cases hdl : (c :: cs).drop len with
        | nil =>
          rw [hdl] at hh
          simp at hh
        | cons dd tt =>
          rw [hdl] at hh
          simp only [List.head?_cons, Option.some.injEq] at hh
          subst hh
          exact hafter cc tt hdl
      have hblock := partyMatchFn_block prev1 (c :: cs) g1 len
        (sub_scan partyMatchFn f (prevAfter prev1 (c :: cs) len)
          ((c :: cs).drop len)) hm hout2head
      obtain ⟨fz, hfz⟩ : ∃ fz, fuel2 = fz + 1 := ⟨fuel2 - 1, by omega⟩
      subst hfz
      have htklen : ((c :: cs).take g1).length = g1 := by
        rw [List.length_take]
        omega
      have htk : (c :: cs).take g1 = c :: cs.take (g1 - 1) := by
        have he : g1 = (g1 - 1) + 1 := by omega
        rw [he, List.take_succ_cons]
        simp
      have hgle : g1 ≤ ((c :: cs).take g1).length := by
        rw [htklen]
      have hassoc : (c :: cs).take g1 ++ [' ', 'N', 'A', 'A', 'M'] ++
            sub_scan partyMatchFn f (prevAfter prev1 (c :: cs) len)
              ((c :: cs).drop len)
          = (c :: cs).take g1 ++ ' ' :: 'N' :: 'A' :: 'A' :: 'M' ::
            sub_scan partyMatchFn f (prevAfter prev1 (c :: cs) len)
              ((c :: cs).drop len) := by
        rw [List.append_assoc]
        rfl
      rw [hassoc]
      have hshape : (c :: cs).take g1 ++ ' ' :: 'N' :: 'A' :: 'A' :: 'M' ::
            sub_scan partyMatchFn f (prevAfter prev1 (c :: cs) len)
              ((c :: cs).drop len)
          = c :: (cs.take (g1 - 1) ++ ' ' :: 'N' :: 'A' :: 'A' :: 'M' ::
            sub_scan partyMatchFn f (prevAfter prev1 (c :: cs) len)
              ((c :: cs).drop len)) := by
        rw [htk]
        rfl
      rw [hshape, sub_scan_cons, ← hshape, hblock]
      simp only []
      have hc1 : ((c :: cs).take g1 ++ ' ' :: 'N' :: 'A' :: 'A' :: 'M' ::
            sub_scan partyMatchFn f (prevAfter prev1 (c :: cs) len)
              ((c :: cs).drop len)).take g1 = (c :: cs).take g1 := by
        rw [take_append_le _ _ g1 hgle, List.take_take, Nat.min_self]
      have hc2 : ((c :: cs).take g1 ++ ' ' :: 'N' :: 'A' :: 'A' :: 'M' ::
            sub_scan partyMatchFn f (prevAfter prev1 (c :: cs) len)
              ((c :: cs).drop len)).drop (g1 + 5)
          = sub_scan partyMatchFn f (prevAfter prev1 (c :: cs) len)
              ((c :: cs).drop len) := by
        rw [List.drop_append_eq_append_drop]
        rw [List.drop_of_length_le (by rw [htklen]; omega), htklen]
        rw [show g1 + 5 - g1 = 5 by omega]
        rfl
      have hc3 : prevAfter prev1 ((c :: cs).take g1 ++
            ' ' :: 'N' :: 'A' :: 'A' :: 'M' ::
            sub_scan partyMatchFn f (prevAfter prev1 (c :: cs) len)
              ((c :: cs).drop len)) (g1 + 5) = some 'M' := by
        unfold prevAfter
        rw [if_neg (by omega)]
        rw [List.take_append_eq_append_take]
        rw [List.take_of_length_le (by rw [htklen]; omega), htklen]
        rw [show g1 + 5 - g1 = 5 by omega]
        rw [List.getLast?_append]
        rfl
      rw [hc1, hc2, hc3, spaceNAAM_toList]
      have hrec : sub_scan partyMatchFn fz (some 'M')
            (sub_scan partyMatchFn f (prevAfter prev1 (c :: cs) len)
              ((c :: cs).drop len))
          = sub_scan partyMatchFn f (prevAfter prev1 (c :: cs) len)
            ((c :: cs).drop len) := by
        apply scan_idem f ((c :: cs).drop len)
          (prevAfter prev1 (c :: cs) len) (some 'M') fz ?_ ?_
          (Or.inr hafter)
        · simp only [List.length_drop, List.length_cons] at hf1 ⊢
          simp only [List.length_cons] at hbounds
          omega
        · simp only [List.length_cons, List.length_append] at hf2
          rw [htklen] at hf2
          omega
      rw [hrec, hassoc]

theorem sub_scan_party_eq (fuel : Nat) (prev : Option Char) (s : List Char) :
    sub_scan partyMatch fuel prev s = sub_scan partyMatchFn fuel prev s :=
  sub_scan_congr partyMatch partyMatchFn partyMatch_eq_fn fuel prev s

theorem scrub_party_names_idem (text : String) :
    scrub_party_names (scrub_party_names text) = scrub_party_names text := by
  unfold scrub_party_names
  congr 1
  rw [sub_scan_party_eq, sub_scan_party_eq]
  have h1 : (String.mk (sub_scan partyMatchFn (text.length + 1) none
      text.toList)).toList
      = sub_scan partyMatchFn (text.length + 1) none text.toList := rfl
  have h2 : (String.mk (sub_scan partyMatchFn (text.length + 1) none
      text.toList)).length
      = (sub_scan partyMatchFn (text.length + 1) none text.toList).length :=
    rfl
  rw [h1, h2]
  have h3 : text.toList.length = text.length := rfl
  exact scan_idem (text.length + 1) text.toList none none
    ((sub_scan partyMatchFn (text.length + 1) none text.toList).length + 1)
    (by rw [h3]) (Nat.le_refl _) (Or.inl rfl)

/-- Claim C5 counterexample: the title rule (rule 1) is not idempotent in
isolation.  On "mr. Aa Bb Cc Dd" the first pass matches the maximal three
name words and rewrites to "mr. NAAM Dd"; the second pass then matches
"NAAM Dd" as a fresh two-word name after the title and rewrites it again,
giving "mr. NAAM", so applying the rule twice differs from applying it
once. -/
theorem claim_C5_counterexample :
    scrub_title_names (scrub_title_names "mr. Aa Bb Cc Dd") ≠
      scrub_title_names "mr. Aa Bb Cc Dd" := by decide

/-- Claim C5 (amended): of the three name rules, only the party rule is
stable under a second pass.  The title rule and the courtesy rule are not
idempotent in isolation: when a first-pass match consumed the maximum of
three name words, the second pass absorbs following words into the
single-word placeholder, as witnessed at the texts below.  The party
rule, whose replacement keeps the keyword and puts one name word after
it, is idempotent on every text: applying it twice equals applying it
once. -/
theorem claim_C5_amended :
    scrub_title_names (scrub_title_names "mr. Aa Bb Cc Dd") ≠
        scrub_title_names "mr. Aa Bb Cc Dd" ∧
    scrub_courtesy_names (scrub_courtesy_names "mevrouw Aa Bb Cc Dd") ≠
        scrub_courtesy_names "mevrouw Aa Bb Cc Dd" ∧
    ∀ text : String,
      scrub_party_names (scrub_party_names text) = scrub_party_names text :=
  ⟨by decide, by decide, scrub_party_names_idem⟩
